import Mathlib

/-!
Shallow embedding of `scripts/externalize_karospace_html.py` from the
KaroSpaceSE repository, together with proofs about the properties of its
blob-detection-and-externalization engine.

Modeling conventions:
* A Python `str` is a list of Unicode code points (`List Nat`); a `bytes`
  value is a list of byte values (`List Nat`, each < 256).
* JSON numbers are modeled as integers.  For numeric literals with a
  fraction or exponent the JSON parser below is faithful to the *extent*
  of the match (the end offset Python's decoder would report), while the
  numeric value is represented by the literal's integer part; none of the
  properties studied here inspect non-integer numeric values.
* Loops are modeled by fuel-based structural recursion so that every
  definition evaluates inside the kernel; the fuel bounds are generous
  enough for all concrete inputs used below, and the universally
  quantified theorems are proved for arbitrary fuel or establish that the
  chosen fuel suffices.
* Filesystem effects of the orchestrator are modeled as an explicit event
  trace (directory creations and file writes, in program order).
-/

namespace KaroSpaceSE

/-- Python exceptions raised by the modeled functions. -/
inductive PyErr where
  | valueError
  | unicodeDecode
  | unicodeEncode
deriving DecidableEq

/-- Convenience: code points of a `String` literal. -/
def s2p (s : String) : List Nat := s.toList.map Char.toNat

/-- Lowercase hexadecimal digit, as used by `json.dumps` control-character
escapes. -/
def hexd (d : Nat) : Nat := if d < 10 then 48 + d else 87 + d

/-- Escape of one character inside a JSON string, as produced by
`json.dumps(..., ensure_ascii=False)`: backslash, double quote and the
shortcut control characters get two-character escapes, any other control
character below 0x20 becomes `\u00xx`, and everything else (including
non-ASCII) passes through unescaped. -/
def escChar (c : Nat) : List Nat :=
  if c = 92 then [92, 92]
  else if c = 34 then [92, 34]
  else if c = 8 then [92, 98]
  else if c = 9 then [92, 116]
  else if c = 10 then [92, 110]
  else if c = 12 then [92, 102]
  else if c = 13 then [92, 114]
  else if c < 32 then [92, 117, 48, 48, hexd (c / 16), hexd (c % 16)]
  else [c]

/-- Decimal digits of a natural number, least significant first; the fuel
argument only needs to dominate the digit count. -/
def natDigitsAux : Nat → Nat → List Nat
  | 0, _ => []
  | f+1, n => if n < 10 then [n] else n % 10 :: natDigitsAux f (n / 10)

/-- Decimal digits of a natural number, most significant first. -/
def natDigits (n : Nat) : List Nat := (natDigitsAux (n + 1) n).reverse

/-- Code points of Python's decimal rendering of an integer (`str(int)`,
which is also what `json.dumps` emits for an `int`). -/
def intChars (n : Int) : List Nat :=
  if n < 0 then 45 :: (natDigits (-n).toNat).map (· + 48)
  else (natDigits n.toNat).map (· + 48)

/-- JSON values as decoded by Python's `json` module (numbers restricted to
integers, see the module docstring; object fields keep parse order). -/
inductive Json where
  | null
  | bool (b : Bool)
  | num (n : Int)
  | str (s : List Nat)
  | arr (items : List Json)
  | obj (fields : List (List Nat × Json))

mutual

/-- Code points of `json.dumps(value, ensure_ascii=False,
separators=(",", ":"))`: the compact serialization used by the script for
payload measurement and chunk files. -/
def serializeChars : Json → List Nat
  | .null => s2p "null"
  | .bool true => s2p "true"
  | .bool false => s2p "false"
  | .num n => intChars n
  | .str s => [34] ++ s.flatMap escChar ++ [34]
  | .arr items => [91] ++ serializeItems items ++ [93]
  | .obj fields => [123] ++ serializeFields fields ++ [125]

/-- Comma-separated compact serialization of array items. -/
def serializeItems : List Json → List Nat
  | [] => []
  | [x] => serializeChars x
  | x :: y :: rest => serializeChars x ++ [44] ++ serializeItems (y :: rest)

/-- Comma-separated compact serialization of object members. -/
def serializeFields : List (List Nat × Json) → List Nat
  | [] => []
  | [(k, v)] => ([34] ++ k.flatMap escChar ++ [34]) ++ [58] ++ serializeChars v
  | (k, v) :: kv :: rest =>
    ([34] ++ k.flatMap escChar ++ [34]) ++ [58] ++ serializeChars v ++ [44] ++
      serializeFields (kv :: rest)

end

/-- UTF-8 encoding of one Unicode scalar value (the branch taken only
depends on the magnitude).  On a lone surrogate Python's `encode` raises
`UnicodeEncodeError` instead; that error path is modeled where it occurs
— via the `utf8Encodable` check in `split_array_for_target_bytes`, and
via scalar-value hypotheses on the text-splitting theorems — so this
total function is only ever evaluated on scalar values. -/
def utf8EncodeChar (c : Nat) : List Nat :=
  if c < 128 then [c]
  else if c < 2048 then [192 + c / 64, 128 + c % 64]
  else if c < 65536 then [224 + c / 4096, 128 + c / 64 % 64, 128 + c % 64]
  else [240 + c / 262144, 128 + c / 4096 % 64, 128 + c / 64 % 64, 128 + c % 64]

/-- `str.encode("utf-8")` on scalar-valued text (see `utf8EncodeChar`
for the lone-surrogate error path). -/
def utf8Encode (s : List Nat) : List Nat := (s.map utf8EncodeChar).flatten

/-- UTF-8 byte length of a value's compact serialization: the quantity the
script uses for all byte accounting (`len(json_text.encode("utf-8"))`). -/
def jsonByteLen (v : Json) : Nat := (utf8Encode (serializeChars v)).length

/-- Loop body state of `split_array_for_target_bytes`: remaining items, the
open fragment `current` and its projected serialized size `current_bytes`
(brackets plus items plus commas).  Emits closed fragments in order. -/
def saLoop (targetBytes : Int) : List Json → List Json → Nat → List (List Json)
  | [], current, _ => if current.isEmpty then [] else [current]
  | item :: rest, current, currentBytes =>
    if current.isEmpty = false ∧
        targetBytes <
          ((currentBytes + (if current.isEmpty then 0 else 1) + jsonByteLen item : Nat) : Int) then
      current :: saLoop targetBytes rest [item] (2 + jsonByteLen item)
    else
      saLoop targetBytes rest (current ++ [item])
        (currentBytes + (if current.isEmpty then 0 else 1) + jsonByteLen item)

/-- Whether `str.encode("utf-8")` succeeds on this text: every code point
is a Unicode scalar value.  A lone surrogate (U+D800..U+DFFF), which
Python's `json.loads` produces from a `\uXXXX` escape and `json.dumps`
re-emits unescaped with `ensure_ascii=False`, makes `encode` raise
`UnicodeEncodeError`. -/
def utf8Encodable (s : List Nat) : Bool :=
  s.all fun c => c < 55296 || (57344 ≤ c && c < 1114112)

/-- `split_array_for_target_bytes(items, target_bytes)`: greedy packing of
array elements into fragments under a byte target.  Raises `ValueError` on
a non-positive target; an empty array yields exactly one empty fragment.
With a nonempty array every loop iteration evaluates
`len(json.dumps(item).encode("utf-8"))`, which raises
`UnicodeEncodeError` as soon as an item's compact serialization contains
a lone surrogate; since the function either raises or returns the full
fragment list, that is an error exactly when some item's serialization is
not UTF-8-encodable. -/
def split_array_for_target_bytes (items : List Json) (targetBytes : Int) :
    Except PyErr (List (List Json)) :=
  if targetBytes ≤ 0 then .error .valueError
  else if items.isEmpty then .ok [[]]
  else if items.all fun it => utf8Encodable (serializeChars it) then
    .ok (saLoop targetBytes items [] 2)
  else .error .unicodeEncode

/-- Serialized byte size of a JSON array with the given items: two bracket
bytes, the items' serialized sizes, and one comma between neighbours.  This
is the quantity `split_array_for_target_bytes` tracks as `current_bytes`. -/
def arrBytes (l : List Json) : Nat := 2 + (l.map jsonByteLen).sum + (l.length - 1)

/-- The script's continuation-byte test `byte & 0b1100_0000 == 0b1000_0000`;
all bytes handled here are < 256, for which the test equals
`b / 64 % 4 = 2`. -/
def isCont (b : Nat) : Bool := b / 64 % 4 == 2

/-- The inner back-off loop of `split_utf8_text_by_bytes`
(`while end < total and continuation: end -= 1`).  Stopping at 0 is
faithful for every reachable input: the loop only runs on payloads
produced by `utf8Encode`, whose first byte is never a continuation byte,
so Python's negative indexing cannot be reached. -/
def backOff (payload : List Nat) : Nat → Nat
  | 0 => 0
  | e+1 =>
    if e+1 < payload.length ∧ isCont (payload.getD (e+1) 0) then backOff payload e
    else e+1

/-- End position of the chunk starting at `idx`: cut at `idx + max_bytes`
(clamped to the payload), back off out of a multi-byte sequence, and if
backing off made no progress force the original cut to guarantee
progress. -/
def chunkEnd (payload : List Nat) (maxB idx : Nat) : Nat :=
  if backOff payload (min (idx + maxB) payload.length) ≤ idx then
    min (idx + maxB) payload.length
  else backOff payload (min (idx + maxB) payload.length)

/-- Byte-level chunking loop of `split_utf8_text_by_bytes`; the fuel only
needs to dominate the number of chunks (every iteration advances `idx`). -/
def chunkLoop (payload : List Nat) (maxB : Nat) : Nat → Nat → List (List Nat)
  | 0, _ => []
  | f+1, idx =>
    if idx < payload.length then
      ((payload.drop idx).take (chunkEnd payload maxB idx - idx)) ::
        chunkLoop payload maxB f (chunkEnd payload maxB idx)
    else []

/-- Strict UTF-8 decoding of a byte string (`bytes.decode("utf-8")`):
rejects stray continuation bytes, truncated sequences, overlong forms,
surrogates and values above U+10FFFF.  Fuel dominates the character
count. -/
def utf8DecodeLoop : Nat → List Nat → Option (List Nat)
  | 0, [] => some []
  | 0, _ :: _ => none
  | _+1, [] => some []
  | f+1, b :: rest =>
    if b < 128 then (utf8DecodeLoop f rest).map (b :: ·)
    else if b < 194 then none
    else if b < 224 then
      if 1 ≤ rest.length ∧ isCont (rest.getD 0 0) then
        (utf8DecodeLoop f (rest.drop 1)).map
          (((b - 192) * 64 + (rest.getD 0 0 - 128)) :: ·)
      else none
    else if b < 240 then
      if 2 ≤ rest.length ∧ isCont (rest.getD 0 0) ∧ isCont (rest.getD 1 0) then
        if 2048 ≤ (b - 224) * 4096 + (rest.getD 0 0 - 128) * 64 + (rest.getD 1 0 - 128) ∧
            ¬ (55296 ≤ (b - 224) * 4096 + (rest.getD 0 0 - 128) * 64 + (rest.getD 1 0 - 128) ∧
               (b - 224) * 4096 + (rest.getD 0 0 - 128) * 64 + (rest.getD 1 0 - 128) < 57344) then
          (utf8DecodeLoop f (rest.drop 2)).map
            (((b - 224) * 4096 + (rest.getD 0 0 - 128) * 64 + (rest.getD 1 0 - 128)) :: ·)
        else none
      else none
    else if b < 245 then
      if 3 ≤ rest.length ∧ isCont (rest.getD 0 0) ∧ isCont (rest.getD 1 0) ∧
          isCont (rest.getD 2 0) then
        if 65536 ≤ (b - 240) * 262144 + (rest.getD 0 0 - 128) * 4096 +
              (rest.getD 1 0 - 128) * 64 + (rest.getD 2 0 - 128) ∧
            (b - 240) * 262144 + (rest.getD 0 0 - 128) * 4096 +
              (rest.getD 1 0 - 128) * 64 + (rest.getD 2 0 - 128) < 1114112 then
          (utf8DecodeLoop f (rest.drop 3)).map
            (((b - 240) * 262144 + (rest.getD 0 0 - 128) * 4096 +
              (rest.getD 1 0 - 128) * 64 + (rest.getD 2 0 - 128)) :: ·)
        else none
      else none
    else none

/-- `bytes.decode("utf-8")` over a whole byte string. -/
def utf8Decode (bs : List Nat) : Option (List Nat) := utf8DecodeLoop bs.length bs

/-- `split_utf8_text_by_bytes(text, max_bytes)`: split the UTF-8 encoding
of `text` into pieces of at most `max_bytes` bytes with the back-off /
force-advance boundary rule, then decode each piece back to text (Python
decodes each chunk as it is appended, so the first undecodable chunk
raises `UnicodeDecodeError`). -/
def split_utf8_text_by_bytes (text : List Nat) (maxBytes : Int) :
    Except PyErr (List (List Nat)) :=
  if maxBytes ≤ 0 then .error .valueError
  else if (utf8Encode text).length = 0 then .ok [[]]
  else
    match (chunkLoop (utf8Encode text) maxBytes.toNat
        (utf8Encode text).length 0).mapM utf8Decode with
    | some chunks => .ok chunks
    | none => .error .unicodeDecode

/-- Unicode scalar values (the code points Python can UTF-8-encode). -/
def isScalar (c : Nat) : Prop := c < 55296 ∨ (57344 ≤ c ∧ c < 1114112)

instance (c : Nat) : Decidable (isScalar c) := by unfold isScalar; infer_instance

/-- Number of leading characters of `cs` whose UTF-8 encodings fit within
`b` bytes (proof-only device for locating the back-off landing point). -/
def charsWithin : List Nat → Nat → Nat
  | [], _ => 0
  | c :: cs, b =>
    if (utf8EncodeChar c).length ≤ b then
      charsWithin cs (b - (utf8EncodeChar c).length) + 1
    else 0

/-- Python's whitespace class (`str.isspace()`, which also models the
`\\s` class of the scanner's regexes; the two sets coincide on every
character the script handles). -/
def pyIsSpace (c : Nat) : Bool :=
  decide ((9 ≤ c ∧ c ≤ 13) ∨ (28 ≤ c ∧ c ≤ 32) ∨ c = 133 ∨ c = 160 ∨ c = 5760 ∨
    (8192 ≤ c ∧ c ≤ 8202) ∨ c = 8232 ∨ c = 8233 ∨ c = 8239 ∨ c = 8287 ∨ c = 12288)

/-- JSON whitespace (` \\t\\n\\r`) as skipped by Python's `json` decoder. -/
def jsonWS (c : Nat) : Bool := decide (c = 32 ∨ c = 9 ∨ c = 10 ∨ c = 13)

/-- ASCII decimal digit. -/
def isDigit (c : Nat) : Bool := decide (48 ≤ c ∧ c ≤ 57)

/-- Greedy scan: first position at or after `pos` whose character fails
`p` (or the end of the string).  Models the `while` loops and greedy
character-class regex pieces. -/
def scanWhile (p : Nat → Bool) (s : List Nat) : Nat → Nat → Nat
  | 0, pos => pos
  | f+1, pos => if pos < s.length ∧ p (s.getD pos 0) then scanWhile p s f (pos + 1) else pos

/-- `skip_whitespace(text, pos)`. -/
def skip_whitespace (text : List Nat) (pos : Nat) : Nat :=
  scanWhile pyIsSpace text (text.length + 1) pos

/-- Skip JSON whitespace from `pos`. -/
def jwsSkip (s : List Nat) (pos : Nat) : Nat := scanWhile jsonWS s (s.length + 1) pos

/-- Literal match of `lit` at `pos`. -/
def litAt (s : List Nat) : List Nat → Nat → Bool
  | [], _ => true
  | c :: rest, pos => decide (pos < s.length ∧ s.getD pos 0 = c) && litAt s rest (pos + 1)

/-- Case-insensitive literal match (ASCII case folding, like Python's
`re.IGNORECASE` over the ASCII patterns used by the script). -/
def lowerAscii (c : Nat) : Nat := if 65 ≤ c ∧ c ≤ 90 then c + 32 else c

/-- `str.lower()` over the ASCII range (the attribute values compared by
the script are ASCII). -/
def pyLower (s : List Nat) : List Nat := s.map lowerAscii

/-- Case-insensitive literal match of `lit` (given lowercase) at `pos`. -/
def litAtCI (s : List Nat) : List Nat → Nat → Bool
  | [], _ => true
  | c :: rest, pos =>
    decide (pos < s.length ∧ lowerAscii (s.getD pos 0) = c) && litAtCI s rest (pos + 1)

/-- `str.strip()`: remove leading and trailing Python whitespace. -/
def pyStrip (s : List Nat) : List Nat :=
  (s.dropWhile pyIsSpace).reverse.dropWhile pyIsSpace |>.reverse

/-- Hexadecimal digit value (`\\uXXXX` escapes accept both cases). -/
def hexVal (c : Nat) : Option Nat :=
  if 48 ≤ c ∧ c ≤ 57 then some (c - 48)
  else if 97 ≤ c ∧ c ≤ 102 then some (c - 87)
  else if 65 ≤ c ∧ c ≤ 70 then some (c - 55)
  else none

/-- Four hexadecimal digits starting at `pos`. -/
def hex4 (s : List Nat) (pos : Nat) : Option Nat :=
  match hexVal (s.getD pos 0), hexVal (s.getD (pos+1) 0),
      hexVal (s.getD (pos+2) 0), hexVal (s.getD (pos+3) 0) with
  | some a, some b, some c, some d =>
    if pos + 4 ≤ s.length then some (a * 4096 + b * 256 + c * 16 + d) else none
  | _, _, _, _ => none

/-- `py_scanstring(s, pos)` with `strict=True`: scan a JSON string body
(the opening quote already consumed), returning the decoded characters
and the offset one past the closing quote.  Handles the two-character
escapes, `\\uXXXX` escapes with surrogate-pair combination, and rejects
raw control characters. -/
def parseStr (s : List Nat) : Nat → Nat → Option (List Nat × Nat)
  | 0, _ => none
  | f+1, pos =>
    if pos < s.length then
      if s.getD pos 0 = 34 then some ([], pos + 1)
      else if s.getD pos 0 = 92 then
        if s.getD (pos+1) 0 = 34 then
          (parseStr s f (pos+2)).map (fun r => (34 :: r.1, r.2))
        else if s.getD (pos+1) 0 = 92 then
          (parseStr s f (pos+2)).map (fun r => (92 :: r.1, r.2))
        else if s.getD (pos+1) 0 = 47 then
          (parseStr s f (pos+2)).map (fun r => (47 :: r.1, r.2))
        else if s.getD (pos+1) 0 = 98 then
          (parseStr s f (pos+2)).map (fun r => (8 :: r.1, r.2))
        else if s.getD (pos+1) 0 = 102 then
          (parseStr s f (pos+2)).map (fun r => (12 :: r.1, r.2))
        else if s.getD (pos+1) 0 = 110 then
          (parseStr s f (pos+2)).map (fun r => (10 :: r.1, r.2))
        else if s.getD (pos+1) 0 = 114 then
          (parseStr s f (pos+2)).map (fun r => (13 :: r.1, r.2))
        else if s.getD (pos+1) 0 = 116 then
          (parseStr s f (pos+2)).map (fun r => (9 :: r.1, r.2))
        else if s.getD (pos+1) 0 = 117 then
          match hex4 s (pos+2) with
          | none => none
          | some u =>
            if 55296 ≤ u ∧ u ≤ 56319 ∧ s.getD (pos+6) 0 = 92 ∧ s.getD (pos+7) 0 = 117 then
              match hex4 s (pos+8) with
              | some u2 =>
                if 56320 ≤ u2 ∧ u2 ≤ 57343 then
                  (parseStr s f (pos+12)).map (fun r =>
                    ((65536 + (u - 55296) * 1024 + (u2 - 56320)) :: r.1, r.2))
                else (parseStr s f (pos+6)).map (fun r => (u :: r.1, r.2))
              | none => (parseStr s f (pos+6)).map (fun r => (u :: r.1, r.2))
            else (parseStr s f (pos+6)).map (fun r => (u :: r.1, r.2))
        else none
      else if s.getD pos 0 < 32 then none
      else (parseStr s f (pos+1)).map (fun r => (s.getD pos 0 :: r.1, r.2))
    else none

/-- Value construction and fraction/exponent extension of a matched
number literal: `pos` is the first character of the literal, `p1` the
first digit of the integer part and `iEnd` its end. -/
def numTail (s : List Nat) (pos p1 iEnd : Nat) : Json × Nat :=
  let fEnd := if s.getD iEnd 0 = 46 ∧ isDigit (s.getD (iEnd + 1) 0) then
      scanWhile isDigit s (s.length + 1) (iEnd + 1) else iEnd
  let eEnd := if s.getD fEnd 0 = 101 ∨ s.getD fEnd 0 = 69 then
      (if isDigit (s.getD (if s.getD (fEnd+1) 0 = 43 ∨ s.getD (fEnd+1) 0 = 45
            then fEnd + 2 else fEnd + 1) 0) then
        scanWhile isDigit s (s.length + 1)
          (if s.getD (fEnd+1) 0 = 43 ∨ s.getD (fEnd+1) 0 = 45 then fEnd + 2 else fEnd + 1)
      else fEnd)
    else fEnd
  let mag : Nat := ((s.drop p1).take (iEnd - p1)).foldl (fun a d => a * 10 + (d - 48)) 0
  (Json.num (if s.getD pos 0 = 45 then -(mag : Int) else (mag : Int)), eEnd)

/-- Prefix match of Python's `NUMBER_RE`
(`(-?(?:0|[1-9]\\d*))(\\.\\d+)?([eE][-+]?\\d+)?`) at `pos`; the value is
the literal's integer part (see the module docstring). -/
def parseNum (s : List Nat) (pos : Nat) : Option (Json × Nat) :=
  let p1 := if s.getD pos 0 = 45 then pos + 1 else pos
  if p1 < s.length then
    if s.getD p1 0 = 48 then some (numTail s pos p1 (p1 + 1))
    else if 49 ≤ s.getD p1 0 ∧ s.getD p1 0 ≤ 57 then
      some (numTail s pos p1 (scanWhile isDigit s (s.length + 1) p1))
    else none
  else none

/-- One cooperative task of the JSON value scanner: parse a value, or
continue an array / object whose opening bracket (and, for the `Rest`
tasks, leading members) have already been consumed.  This mirrors the
mutually recursive structure of Python's `py_make_scanner` closures while
staying structurally recursive on one fuel argument. -/
inductive PTask where
  | val
  | arrStart
  | arrRest (acc : List Json)
  | objStart
  | objRest (acc : List (List Nat × Json))

/-- The JSON scanner (`scan_once`): dispatch on the current character or
continue the enclosing container; whitespace handling, the accepted
`NaN` / `Infinity` / `-Infinity` constants (whose numeric values are not
modeled, only their extents) and error cases follow Python's decoder. -/
def parseRun (s : List Nat) : Nat → PTask → Nat → Option (Json × Nat)
  | 0, _, _ => none
  | f+1, .val, pos =>
    if pos < s.length then
      if s.getD pos 0 = 34 then
        (parseStr s (s.length + 1) (pos+1)).map (fun r => (Json.str r.1, r.2))
      else if s.getD pos 0 = 123 then parseRun s f .objStart (pos+1)
      else if s.getD pos 0 = 91 then parseRun s f .arrStart (pos+1)
      else if s.getD pos 0 = 110 then
        if litAt s (s2p "null") pos then some (Json.null, pos + 4) else none
      else if s.getD pos 0 = 116 then
        if litAt s (s2p "true") pos then some (Json.bool true, pos + 4) else none
      else if s.getD pos 0 = 102 then
        if litAt s (s2p "false") pos then some (Json.bool false, pos + 5) else none
      else if isDigit (s.getD pos 0) then parseNum s pos
      else if s.getD pos 0 = 45 then
        match parseNum s pos with
        | some r => some r
        | none =>
          if litAt s (s2p "-Infinity") pos then some (Json.num 0, pos + 9) else none
      else if s.getD pos 0 = 78 then
        if litAt s (s2p "NaN") pos then some (Json.num 0, pos + 3) else none
      else if s.getD pos 0 = 73 then
        if litAt s (s2p "Infinity") pos then some (Json.num 0, pos + 8) else none
      else none
    else none
  | f+1, .arrStart, pos =>
    if jwsSkip s pos < s.length ∧ s.getD (jwsSkip s pos) 0 = 93 then
      some (Json.arr [], jwsSkip s pos + 1)
    else parseRun s f (.arrRest []) (jwsSkip s pos)
  | f+1, .arrRest acc, pos =>
    match parseRun s f .val pos with
    | none => none
    | some (v, e) =>
      if jwsSkip s e < s.length ∧ s.getD (jwsSkip s e) 0 = 93 then
        some (Json.arr (acc ++ [v]), jwsSkip s e + 1)
      else if jwsSkip s e < s.length ∧ s.getD (jwsSkip s e) 0 = 44 then
        parseRun s f (.arrRest (acc ++ [v])) (jwsSkip s (jwsSkip s e + 1))
      else none
  | f+1, .objStart, pos =>
    if jwsSkip s pos < s.length ∧ s.getD (jwsSkip s pos) 0 = 125 then
      some (Json.obj [], jwsSkip s pos + 1)
    else if jwsSkip s pos < s.length ∧ s.getD (jwsSkip s pos) 0 = 34 then
      parseRun s f (.objRest []) (jwsSkip s pos + 1)
    else none
  | f+1, .objRest acc, pos =>
    match parseStr s (s.length + 1) pos with
    | none => none
    | some (k, e1) =>
      if jwsSkip s e1 < s.length ∧ s.getD (jwsSkip s e1) 0 = 58 then
        match parseRun s f .val (jwsSkip s (jwsSkip s e1 + 1)) with
        | none => none
        | some (v, e2) =>
          if jwsSkip s e2 < s.length ∧ s.getD (jwsSkip s e2) 0 = 125 then
            some (Json.obj (acc ++ [(k, v)]), jwsSkip s e2 + 1)
          else if jwsSkip s e2 < s.length ∧ s.getD (jwsSkip s e2) 0 = 44 then
            if jwsSkip s (jwsSkip s e2 + 1) < s.length ∧
                s.getD (jwsSkip s (jwsSkip s e2 + 1)) 0 = 34 then
              parseRun s f (.objRest (acc ++ [(k, v)])) (jwsSkip s (jwsSkip s e2 + 1) + 1)
            else none
          else none
      else none

/-- `JSONDecoder.raw_decode(s)`: one JSON value starting at offset 0 with
its exclusive end offset.  The fuel is generous for every input the
concrete documents below contain; the universally quantified theorems
never rely on the fuel sufficing. -/
def jsonRawDecode (s : List Nat) : Option (Json × Nat) :=
  parseRun s (4 * s.length + 4) .val 0

/-- `json.loads(s)`: a whole-string parse — leading and trailing JSON
whitespace allowed, anything else after the value is an error. -/
def jsonLoads (s : List Nat) : Option Json :=
  match parseRun s (4 * s.length + 4) .val (jwsSkip s 0) with
  | none => none
  | some (v, e) => if jwsSkip s e = s.length then some v else none

/-- `[\\w$]` (ASCII portion of `\\w`; non-ASCII identifier characters are
not modeled — no studied property involves them). -/
def isWordChar (c : Nat) : Bool :=
  decide ((48 ≤ c ∧ c ≤ 57) ∨ (65 ≤ c ∧ c ≤ 90) ∨ (97 ≤ c ∧ c ≤ 122) ∨ c = 95)

/-- `[A-Za-z_$]`: first character of a JS identifier. -/
def isIdentStart (c : Nat) : Bool :=
  decide ((65 ≤ c ∧ c ≤ 90) ∨ (97 ≤ c ∧ c ≤ 122) ∨ c = 95 ∨ c = 36)

/-- `[\\w$]`: subsequent identifier characters. -/
def isIdentChar (c : Nat) : Bool := isWordChar c || decide (c = 36)

/-- Match `[A-Za-z_$][\\w$]*` at `pos`, returning the end offset. -/
def matchIdent (s : List Nat) (pos : Nat) : Option Nat :=
  if pos < s.length ∧ isIdentStart (s.getD pos 0) then
    some (scanWhile isIdentChar s (s.length + 1) (pos + 1))
  else none

/-- One match of `ASSIGNMENT_START_RE`: the anchor's span `[start, stop)`
(`stop` is Python's `match.end()`), which alternative matched, and the
captured keyword and name groups. -/
structure AMatch where
  start : Nat
  stop : Nat
  isWindow : Bool
  declKind : Option (List Nat)
  name : List Nat
deriving DecidableEq

/-- The `const|let|var` alternation (tried in this order; the keywords
start with distinct characters so no backtracking arises). -/
def matchKw (s : List Nat) (i : Nat) : Option (List Nat) :=
  if litAt s (s2p "const") i then some (s2p "const")
  else if litAt s (s2p "let") i then some (s2p "let")
  else if litAt s (s2p "var") i then some (s2p "var")
  else none

/-- The declaration alternative
`(?:const|let|var)\\s+NAME\\s*=\\s*` anchored at `i` (the pattern has no
word-boundary guard before the keyword, faithfully to the source). -/
def matchDeclAt (s : List Nat) (i : Nat) : Option AMatch :=
  match matchKw s i with
  | none => none
  | some kw =>
    if scanWhile pyIsSpace s (s.length + 1) (i + kw.length) = i + kw.length then none
    else
      match matchIdent s (scanWhile pyIsSpace s (s.length + 1) (i + kw.length)) with
      | none => none
      | some identEnd =>
        if scanWhile pyIsSpace s (s.length + 1) identEnd < s.length ∧
            s.getD (scanWhile pyIsSpace s (s.length + 1) identEnd) 0 = 61 then
          some { start := i
                 stop := scanWhile pyIsSpace s (s.length + 1)
                   (scanWhile pyIsSpace s (s.length + 1) identEnd + 1)
                 isWindow := false
                 declKind := some kw
                 name := (s.drop (scanWhile pyIsSpace s (s.length + 1) (i + kw.length))).take
                   (identEnd - scanWhile pyIsSpace s (s.length + 1) (i + kw.length)) }
        else none

/-- The `window\\.NAME\\s*=\\s*` alternative anchored at `i`. -/
def matchWindowAt (s : List Nat) (i : Nat) : Option AMatch :=
  if litAt s (s2p "window.") i then
    match matchIdent s (i + 7) with
    | none => none
    | some identEnd =>
      if scanWhile pyIsSpace s (s.length + 1) identEnd < s.length ∧
          s.getD (scanWhile pyIsSpace s (s.length + 1) identEnd) 0 = 61 then
        some { start := i
               stop := scanWhile pyIsSpace s (s.length + 1)
                 (scanWhile pyIsSpace s (s.length + 1) identEnd + 1)
               isWindow := true
               declKind := none
               name := (s.drop (i + 7)).take (identEnd - (i + 7)) }
      else none
  else none

/-- Anchor match at one position: declaration alternative first, then the
`window.` alternative, as in the source pattern. -/
def matchAt (s : List Nat) (i : Nat) : Option AMatch :=
  match matchDeclAt s i with
  | some m => some m
  | none => matchWindowAt s i

/-- Leftmost anchor match at or after `pos`. -/
def searchLoop (s : List Nat) : Nat → Nat → Option AMatch
  | 0, _ => none
  | f+1, pos =>
    match matchAt s pos with
    | some m => some m
    | none => searchLoop s f (pos + 1)

/-- `ASSIGNMENT_START_RE.search(script_body, scan_pos)`. -/
def assignmentSearch (s : List Nat) (pos : Nat) : Option AMatch :=
  searchLoop s (s.length + 1 - pos) pos

/-- Detector kind of a `BlobCandidate`. -/
inductive Detector where
  | script_json
  | js_assignment
deriving DecidableEq

/-- `BlobCandidate` (the dataclass; Python's `end` is `stop` here). -/
structure BlobCandidate where
  detector : Detector
  start : Nat
  stop : Nat
  payload_bytes : Nat
  raw_json : List Nat
  value : Json
  script_attrs : Option (List Nat) := none
  script_id : Option (List Nat) := none
  script_had_id : Bool := false
  assignment_style : Option (List Nat) := none
  decl_kind : Option (List Nat) := none
  variable_name : Option (List Nat) := none

/-- Statement end after a decoded value: optional whitespace and one
trailing semicolon (`stmt_end` in the source). -/
def daStmtEnd (body : List Nat) (valueEnd : Nat) : Nat :=
  if skip_whitespace body valueEnd < body.length ∧
      body.getD (skip_whitespace body valueEnd) 0 = 59 then
    skip_whitespace body valueEnd + 1
  else skip_whitespace body valueEnd

/-- Result of one iteration of the `detect_assignment_candidates` loop:
stop scanning, move `scan_pos` without emitting, or emit a candidate
(after which `consumed_until` becomes the statement end, like
`scan_pos`). -/
inductive DaStepRes where
  | halt
  | skipTo (next : Nat)
  | emit (c : BlobCandidate) (next : Nat)

/-- One iteration of `detect_assignment_candidates`' `while True` loop
at state (`scan_pos`, `consumed_until`): search for an anchor, skip
overlaps with the consumed region, require `[` or `{` after optional
whitespace, decode the JSON value, extend through optional whitespace and
one trailing `;`, and build the candidate. -/
def daStep (body : List Nat) (base : Nat) (sp cu : Nat) : DaStepRes :=
  match assignmentSearch body sp with
  | none => .halt
  | some m =>
    if m.start < cu then .skipTo cu
    else
      if skip_whitespace body m.stop < body.length ∧
          (body.getD (skip_whitespace body m.stop) 0 = 91 ∨
           body.getD (skip_whitespace body m.stop) 0 = 123) then
        match jsonRawDecode (body.drop (skip_whitespace body m.stop)) with
        | none => .skipTo m.stop
        | some (v, relEnd) =>
          .emit
            { detector := .js_assignment
              start := base + m.start
              stop := base + daStmtEnd body (skip_whitespace body m.stop + relEnd)
              payload_bytes :=
                (utf8Encode ((body.drop (skip_whitespace body m.stop)).take relEnd)).length
              raw_json := (body.drop (skip_whitespace body m.stop)).take relEnd
              value := v
              assignment_style :=
                some (if m.isWindow then s2p "window" else s2p "declaration")
              decl_kind := m.declKind
              variable_name := some m.name }
            (daStmtEnd body (skip_whitespace body m.stop + relEnd))
      else .skipTo m.stop

/-- The scan loop itself; `none` means the fuel ran out (never the case
with fuel `length + 2`, proved below). -/
def daLoop (body : List Nat) (base : Nat) : Nat → Nat → Nat → Option (List BlobCandidate)
  | 0, _, _ => none
  | f+1, sp, cu =>
    match daStep body base sp cu with
    | .halt => some []
    | .skipTo n => daLoop body base f n cu
    | .emit c n => (daLoop body base f n n).map (c :: ·)

/-- `detect_assignment_candidates(script_body, base_offset)`. -/
def detect_assignment_candidates (body : List Nat) (base : Nat) : List BlobCandidate :=
  (daLoop body base (body.length + 2) 0 0).getD []

/-- `Replacement` (the dataclass; Python's `end` is `stop` here). -/
structure Replacement where
  start : Nat
  stop : Nat
  text : List Nat
deriving DecidableEq

/-- One splice step `updated[: r.start] + r.text + updated[r.end :]`. -/
def splice (u : List Nat) (r : Replacement) : List Nat :=
  u.take r.start ++ r.text ++ u.drop r.stop

/-- `apply_replacements(html, replacements)`: sort by start offset,
highest first (`sorted(..., key=start, reverse=True)` is a stable
descending sort, modeled by insertion sort with the reflexive descending
relation), then splice each replacement in turn. -/
def apply_replacements (html : List Nat) (reps : List Replacement) : List Nat :=
  (reps.insertionSort (fun a b => b.start ≤ a.start)).foldl splice html

/-- Simultaneous substitution of ascending, non-overlapping spans: emit
the segment before each span, its replacement text, and after the last
span the remaining tail.  This is the specification the claim compares
`apply_replacements` against. -/
def simulFrom (html : List Nat) : Nat → List Replacement → List Nat
  | pos, [] => html.drop pos
  | pos, r :: rest =>
    (html.drop pos).take (r.start - pos) ++ r.text ++ simulFrom html r.stop rest

/-- First position at or after `pos` holding character `c`. -/
def findChar (s : List Nat) (c : Nat) : Nat → Nat → Option Nat
  | 0, _ => none
  | f+1, pos =>
    if pos < s.length then
      if s.getD pos 0 = c then some pos else findChar s c f (pos + 1)
    else none

/-- First position at or after `pos` where the case-insensitive literal
`lit` (given in lowercase) occurs. -/
def findCI (s lit : List Nat) : Nat → Nat → Option Nat
  | 0, _ => none
  | f+1, pos =>
    if pos + lit.length ≤ s.length then
      if litAtCI s lit pos then some pos else findCI s lit f (pos + 1)
    else none

/-- One match of `SCRIPT_TAG_RE`: span, attribute text, body text and the
body's start offset. -/
structure ScriptMatch where
  start : Nat
  attrs : List Nat
  body : List Nat
  bodyStart : Nat
  stop : Nat
deriving DecidableEq

/-- Try `(?is)<script\\b(?P<attrs>[^>]*)>(?P<body>.*?)</script>` at
position `i`: the case-insensitive tag name followed by a word boundary,
attributes up to the first `>`, and a non-greedy body up to the first
case-insensitive `</script>`. -/
def scriptTagMatchAt (html : List Nat) (i : Nat) : Option ScriptMatch :=
  if litAtCI html (s2p "<script") i ∧
      ¬ (i + 7 < html.length ∧ isWordChar (html.getD (i + 7) 0)) then
    match findChar html 62 (html.length + 1) (i + 7) with
    | none => none
    | some gtPos =>
      match findCI html (s2p "</script>") (html.length + 1) (gtPos + 1) with
      | none => none
      | some closePos =>
        some { start := i
               attrs := (html.drop (i + 7)).take (gtPos - (i + 7))
               body := (html.drop (gtPos + 1)).take (closePos - (gtPos + 1))
               bodyStart := gtPos + 1
               stop := closePos + 9 }
  else none

/-- Scan for the leftmost script-tag match at or after `pos`. -/
def stSearchLoop (html : List Nat) : Nat → Nat → Option ScriptMatch
  | 0, _ => none
  | f+1, pos =>
    match scriptTagMatchAt html pos with
    | some m => some m
    | none => stSearchLoop html f (pos + 1)

/-- `SCRIPT_TAG_RE.search(html, pos)` (one step of `finditer`). -/
def scriptTagSearch (html : List Nat) (pos : Nat) : Option ScriptMatch :=
  stSearchLoop html (html.length + 1 - pos) pos

/-- `[^\\s"\x27=<>\x60]`: characters allowed in an unquoted attribute
value. -/
def isBareValChar (c : Nat) : Bool :=
  !(pyIsSpace c) && !(decide (c = 34 ∨ c = 39 ∨ c = 61 ∨ c = 60 ∨ c = 62 ∨ c = 96))

/-- The three value alternatives of the `extract_attr` pattern at `p2`:
`"([^"]*)"`, then `\x27([^\x27]*)\x27`, then a nonempty bare-character
run. -/
def eaValueAt (attrs : List Nat) (p2 : Nat) : Option (List Nat) :=
  if p2 < attrs.length ∧ attrs.getD p2 0 = 34 then
    match findChar attrs 34 (attrs.length + 1) (p2 + 1) with
    | some q => some ((attrs.drop (p2 + 1)).take (q - (p2 + 1)))
    | none => none
  else if p2 < attrs.length ∧ attrs.getD p2 0 = 39 then
    match findChar attrs 39 (attrs.length + 1) (p2 + 1) with
    | some q => some ((attrs.drop (p2 + 1)).take (q - (p2 + 1)))
    | none => none
  else if p2 < attrs.length ∧ isBareValChar (attrs.getD p2 0) then
    some ((attrs.drop p2).take
      (scanWhile isBareValChar attrs (attrs.length + 1) (p2 + 1) - p2))
  else none

/-- One attempted match of the `extract_attr` pattern at position `i`:
word boundary, the attribute name (case-insensitive, given lowercase),
`\\s*=\\s*`, then a double-quoted, single-quoted or bare value —
alternatives tried in the pattern's order. -/
def extractAttrAt (attrs lname : List Nat) (i : Nat) : Option (List Nat) :=
  if (i = 0 ∨ ¬ isWordChar (attrs.getD (i - 1) 0)) ∧ litAtCI attrs lname i then
    if scanWhile pyIsSpace attrs (attrs.length + 1) (i + lname.length) < attrs.length ∧
        attrs.getD (scanWhile pyIsSpace attrs (attrs.length + 1) (i + lname.length)) 0 = 61 then
      eaValueAt attrs
        (scanWhile pyIsSpace attrs (attrs.length + 1)
          (scanWhile pyIsSpace attrs (attrs.length + 1) (i + lname.length) + 1))
    else none
  else none

/-- `extract_attr(attrs, name)`: leftmost match wins. -/
def eaSearchLoop (attrs lname : List Nat) : Nat → Nat → Option (List Nat)
  | 0, _ => none
  | f+1, pos =>
    match extractAttrAt attrs lname pos with
    | some v => some v
    | none => eaSearchLoop attrs lname f (pos + 1)

/-- `extract_attr(attrs, name)` (the name given in lowercase; the match's
first non-`None` group is the returned value). -/
def extract_attr (attrs lname : List Nat) : Option (List Nat) :=
  eaSearchLoop attrs lname (attrs.length + 1) 0

/-- Zero-padded decimal digits of the synthesized-id counter
(`{n:03d}`). -/
def pad3Digits (n : Nat) : List Nat :=
  if (natDigits n).length < 3 then
    List.replicate (3 - (natDigits n).length) 0 ++ natDigits n
  else natDigits n

/-- `f"karospace_data_{n:03d}"`. -/
def synthName (n : Nat) : List Nat :=
  s2p "karospace_data_" ++ (pad3Digits n).map (· + 48)

/-- One pass of `detect_candidates` over the script elements
(`SCRIPT_TAG_RE.finditer`), in match order: a script of type
`application/json` with a nonempty body that parses as JSON becomes a
`script_json` candidate; any other script's body is scanned for JS
assignments.  Ids follow `script_id = existing_id or
f"karospace_data_{counter:03d}"` with `script_had_id = existing_id is not
None` and the counter advancing only when `existing_id is None`: an
extracted id takes effect only when truthy, so an empty `id=""` attribute
still marks `script_had_id` but yields the synthesized-form name at the
current counter without advancing it. -/
def detectLoop (html : List Nat) : Nat → Nat → Nat → List BlobCandidate
  | 0, _, _ => []
  | f+1, pos, ctr =>
    match scriptTagSearch html pos with
    | none => []
    | some m =>
      if pyStrip (pyLower ((extract_attr m.attrs (s2p "type")).getD [])) =
          s2p "application/json" then
        if (pyStrip m.body).isEmpty then detectLoop html f m.stop ctr
        else
          match jsonLoads (pyStrip m.body) with
          | none => detectLoop html f m.stop ctr
          | some parsed =>
            match extract_attr m.attrs (s2p "id") with
            | some existing =>
              { detector := .script_json, start := m.start, stop := m.stop,
                payload_bytes := (utf8Encode (pyStrip m.body)).length,
                raw_json := pyStrip m.body, value := parsed,
                script_attrs := some m.attrs,
                script_id := some (if existing.isEmpty then synthName ctr else existing),
                script_had_id := true } ::
                detectLoop html f m.stop ctr
            | none =>
              { detector := .script_json, start := m.start, stop := m.stop,
                payload_bytes := (utf8Encode (pyStrip m.body)).length,
                raw_json := pyStrip m.body, value := parsed,
                script_attrs := some m.attrs,
                script_id := some (synthName ctr), script_had_id := false } ::
                detectLoop html f m.stop (ctr + 1)
      else
        detect_assignment_candidates m.body m.bodyStart ++ detectLoop html f m.stop ctr

/-- `detect_candidates(html)`: collect candidates over all script
elements and sort them by start offset (`list.sort` is stable; insertion
sort models it). -/
def detect_candidates (html : List Nat) : List BlobCandidate :=
  (detectLoop html (html.length + 1) 0 0).insertionSort (fun a b => a.start ≤ b.start)

/-- The synthesized ids of the script-JSON candidates of a list, in
order. -/
def synthIds (l : List BlobCandidate) : List (List Nat) :=
  l.filterMap (fun c =>
    if c.detector = Detector.script_json ∧ c.script_had_id = false then c.script_id else none)

/-- Value of a digit list, least significant digit first (proof-only). -/
def lsfVal : List Nat → Nat
  | [] => 0
  | d :: rest => d + 10 * lsfVal rest

/-- Value of a digit list, most significant digit first (proof-only). -/
def digitsVal (ds : List Nat) : Nat := ds.foldl (fun a d => a * 10 + d) 0

/-- Document with three `application/json` scripts, the middle one with an
explicit id, used to witness the id-synthesis properties. -/
def exHtmlC8 : List Nat :=
  s2p "<script type=\"application/json\">7</script><script type=\"application/json\" id=\"keep\">8</script><script type=\"application/json\">9</script>"

/-- Document with an empty-id JSON script followed by a plain JSON
script, exhibiting the falsy treatment of `id=""`. -/
def exHtmlC8b : List Nat :=
  s2p "<script type=\"application/json\" id=\"\">1</script><script type=\"application/json\">2</script>"

/-- A chunk entry recorded in the manifest (`entries.append({...})`); the
`items` field is present only for array-strategy entries. -/
structure ChunkEntry where
  path : List Nat
  bytes : Nat
  items : Option Nat
  format : List Nat

/-- A file written into the data directory: its name within that
directory and the text written (`chunk_path.write_text(..., "utf-8")`
stores its UTF-8 encoding on disk). -/
structure FileWrite where
  name : List Nat
  content : List Nat

/-- `f"chunk_{chunk_counter:03d}" + ext` (`ext` is `.json` or `.txt`). -/
def chunkFileName (ctr : Nat) (ext : List Nat) : List Nat :=
  s2p "chunk_" ++ (pad3Digits ctr).map (· + 48) ++ ext

/-- The `for arr in array_slices` loop of `write_array_chunks`: each
iteration writes one `.json` file and appends the matching manifest
entry; the counter advances by one per iteration, so the final counter is
the start plus the number of slices. -/
def wacLoop : Nat → List (List Json) → List (ChunkEntry × FileWrite)
  | _, [] => []
  | ctr, arr :: rest =>
    ({ path := s2p "data/" ++ chunkFileName ctr (s2p ".json"),
       bytes := (utf8Encode (serializeChars (Json.arr arr))).length,
       items := some arr.length,
       format := s2p "json_array" },
     { name := chunkFileName ctr (s2p ".json"),
       content := serializeChars (Json.arr arr) }) :: wacLoop (ctr + 1) rest

/-- `write_array_chunks(value, data_dir, chunk_target_bytes,
chunk_counter)`: split the array, write one `.json` file per slice and
record one entry per file; returns the entry/write pairs, the advanced
counter and the strategy string. -/
def write_array_chunks (value : List Json) (chunkTargetBytes : Int) (chunkCounter : Nat) :
    Except PyErr (List (ChunkEntry × FileWrite) × Nat × List Nat) :=
  (split_array_for_target_bytes value chunkTargetBytes).map (fun slices =>
    (wacLoop chunkCounter slices, chunkCounter + slices.length, s2p "array_slices"))

/-- The `for part in parts` loop of `write_text_chunks`: one `.txt` file
and one entry per text piece (text entries carry no `items` field). -/
def wtcLoop : Nat → List (List Nat) → List (ChunkEntry × FileWrite)
  | _, [] => []
  | ctr, part :: rest =>
    ({ path := s2p "data/" ++ chunkFileName ctr (s2p ".txt"),
       bytes := (utf8Encode part).length,
       items := none,
       format := s2p "json_text_piece" },
     { name := chunkFileName ctr (s2p ".txt"), content := part }) :: wtcLoop (ctr + 1) rest

/-- `write_text_chunks(value, data_dir, chunk_target_bytes,
chunk_counter)`: serialize the value, split its UTF-8 encoding, write one
`.txt` file per piece and record one entry per file. -/
def write_text_chunks (value : Json) (chunkTargetBytes : Int) (chunkCounter : Nat) :
    Except PyErr (List (ChunkEntry × FileWrite) × Nat × List Nat) :=
  (split_utf8_text_by_bytes (serializeChars value) chunkTargetBytes).map (fun parts =>
    (wtcLoop chunkCounter parts, chunkCounter + parts.length, s2p "text_concat"))

/-- `--mode` choices. -/
inductive Mode where
  | auto
  | single
  | directory
deriving DecidableEq

/-- Filesystem side effects of a run, in program order.  `mkOutdirAgain`
and `copySingleWrite` are `copy_single`'s `outdir.mkdir` and
`shutil.copy2`; `chunkWrite` carries the data-file name. -/
inductive Event where
  | mkOutdir
  | mkBackupDir
  | backupWrite
  | mkOutdirAgain
  | copySingleWrite
  | mkViewerDir
  | mkDataDir
  | chunkWrite (name : List Nat)
  | manifestWrite
  | indexWrite
deriving DecidableEq

/-- The distinct failure sites of `run` / `externalize_to_directory`
(Python raises `ValueError` at the slug, not-a-file, same-path and
chunk-size sites, `FileNotFoundError`, `RuntimeError` for zero
candidates, and propagates `UnicodeDecodeError` from text splitting). -/
inductive RunErr where
  | invalidSlug
  | fileNotFound
  | notAFile
  | samePath
  | noCandidates
  | badChunkMb
  | unicodeDecode
  | unicodeEncode
deriving DecidableEq

/-- Successful run outcome: single-file copy, or directory
externalization with the number of chunk files written. -/
inductive Outcome where
  | single
  | directory (chunksWritten : Nat)
deriving DecidableEq

/-- The slug alphabet `[A-Za-z0-9._-]`. -/
def isSlugChar (c : Nat) : Bool :=
  (65 ≤ c && c ≤ 90) || (97 ≤ c && c ≤ 122) || (48 ≤ c && c ≤ 57) ||
    c == 46 || c == 95 || c == 45

/-- `validate_slug`: `re.fullmatch(r"[A-Za-z0-9._-]+", slug)` demands a
nonempty slug made only of the allowed characters. -/
def validate_slug (slug : List Nat) : Bool := !slug.isEmpty && slug.all isSlugChar

/-- Map a propagated `PyErr` to the run-level error: inside the chunk
loop the only `ValueError` source is the (already converted) chunk byte
target, and `UnicodeDecodeError` comes from text splitting. -/
def pyToRun : PyErr → RunErr
  | .valueError => .badChunkMb
  | .unicodeDecode => .unicodeDecode
  | .unicodeEncode => .unicodeEncode

/-- The `for idx, candidate in enumerate(candidates)` loop of
`externalize_to_directory`, restricted to its filesystem effects: each
candidate's value is written through `write_array_chunks` (lists) or
`write_text_chunks` (anything else) with the shared chunk counter;
returns the chunk-write events and the final counter, or the first
propagated error. -/
def extDirLoop (tb : Int) : List BlobCandidate → Nat → List Event × Except RunErr Nat
  | [], ctr => ([], .ok ctr)
  | c :: rest, ctr =>
    match (match c.value with
           | Json.arr l => write_array_chunks l tb ctr
           | v => write_text_chunks v tb ctr) with
    | .error e => ([], .error (pyToRun e))
    | .ok (pairs, ctr2, _) =>
      match extDirLoop tb rest ctr2 with
      | (evs, r) => (pairs.map (fun p => Event.chunkWrite p.2.name) ++ evs, r)

/-- `externalize_to_directory(html, candidates, outdir, slug, chunk_mb)`
as its event trace and result: empty-candidate and chunk-size checks
first (before any directory creation), then the viewer and data
directories, the chunk files, and finally the manifest and index writes.
`tb` is the already-converted `int(chunk_mb * 1024 * 1024)`. -/
def externalize_to_directory (candidates : List BlobCandidate) (tb : Int) :
    List Event × Except RunErr Nat :=
  if candidates.isEmpty then ([], .error .noCandidates)
  else if tb ≤ 0 then ([], .error .badChunkMb)
  else
    match extDirLoop tb candidates 0 with
    | (evs, .error e) => ([.mkViewerDir, .mkDataDir] ++ evs, .error e)
    | (evs, .ok n) =>
      ([.mkViewerDir, .mkDataDir] ++ evs ++ [.manifestWrite, .indexWrite], .ok n)

/-- Configuration and filesystem predicates of one `run()` invocation.
`thresholdBytes` and `chunkTargetBytes` are the already-converted
`int(mb * 1024 * 1024)` values; `sameFilePath` is whether the resolved
input path equals the resolved single-copy target. -/
structure RunEnv where
  slug : List Nat
  inputExists : Bool
  inputIsFile : Bool
  sameFilePath : Bool
  html : List Nat
  mode : Mode
  thresholdBytes : Int
  chunkTargetBytes : Int

/-- `sum(candidate.payload_bytes for candidate in candidates)` over the
detected candidates of a document. -/
def payloadTotal (html : List Nat) : Nat :=
  ((detect_candidates html).map BlobCandidate.payload_bytes).sum

/-- `run()` as its event trace and result, in source order: slug
validation, input existence and file checks (all before any I/O), then
`outdir.mkdir`, the read, `make_backup_copy` (backup dir + copy), then
the single-mode copy; otherwise detection, the zero-candidate check, the
auto-mode threshold comparison (choosing the single-file copy), and
otherwise directory externalization. -/
def run (env : RunEnv) : List Event × Except RunErr Outcome :=
  if validate_slug env.slug = false then ([], .error .invalidSlug)
  else if env.inputExists = false then ([], .error .fileNotFound)
  else if env.inputIsFile = false then ([], .error .notAFile)
  else if env.mode = Mode.single then
    if env.sameFilePath then
      ([.mkOutdir, .mkBackupDir, .backupWrite, .mkOutdirAgain], .error .samePath)
    else
      ([.mkOutdir, .mkBackupDir, .backupWrite, .mkOutdirAgain, .copySingleWrite],
        .ok .single)
  else if (detect_candidates env.html).isEmpty then
    ([.mkOutdir, .mkBackupDir, .backupWrite], .error .noCandidates)
  else if env.mode = Mode.auto ∧ (payloadTotal env.html : Int) ≤ env.thresholdBytes then
    if env.sameFilePath then
      ([.mkOutdir, .mkBackupDir, .backupWrite, .mkOutdirAgain], .error .samePath)
    else
      ([.mkOutdir, .mkBackupDir, .backupWrite, .mkOutdirAgain, .copySingleWrite],
        .ok .single)
  else
    match externalize_to_directory (detect_candidates env.html) env.chunkTargetBytes with
    | (evs, .error e) => ([.mkOutdir, .mkBackupDir, .backupWrite] ++ evs, .error e)
    | (evs, .ok n) =>
      ([.mkOutdir, .mkBackupDir, .backupWrite] ++ evs, .ok (.directory n))

instance {ε α : Type} [DecidableEq ε] [DecidableEq α] : DecidableEq (Except ε α)
  | .error x, .error y =>
    if h : x = y then .isTrue (congrArg Except.error h)
    else .isFalse (fun hc => h (Except.error.inj hc))
  | .error _, .ok _ => .isFalse (fun hc => Except.noConfusion hc)
  | .ok _, .error _ => .isFalse (fun hc => Except.noConfusion hc)
  | .ok x, .ok y =>
    if h : x = y then .isTrue (congrArg Except.ok h)
    else .isFalse (fun hc => h (Except.ok.inj hc))

/-- Run configuration with an empty input document under auto mode (the
default 80 MB threshold and 50 MB chunk target, as bytes). -/
def c5Env : RunEnv :=
  { slug := s2p "x", inputExists := true, inputIsFile := true,
    sameFilePath := false, html := [], mode := Mode.auto,
    thresholdBytes := 83886080, chunkTargetBytes := 52428800 }

/-- Single-mode run whose input and single-copy target resolve to the
same path. -/
def c6Env : RunEnv :=
  { slug := s2p "x", inputExists := true, inputIsFile := true,
    sameFilePath := true, html := [], mode := Mode.single,
    thresholdBytes := 83886080, chunkTargetBytes := 52428800 }

/-- Directory-mode run with one detectable assignment and a non-positive
chunk byte target. -/
def c6DirEnv : RunEnv :=
  { slug := s2p "x", inputExists := true, inputIsFile := true,
    sameFilePath := false, html := s2p "<script>var A = [1];</script>",
    mode := Mode.directory, thresholdBytes := 83886080, chunkTargetBytes := 0 }

/-- Auto-mode run over one three-byte payload with the threshold exactly
at the payload size. -/
def c7EnvT : RunEnv :=
  { slug := s2p "x", inputExists := true, inputIsFile := true,
    sameFilePath := false, html := s2p "<script>var A = [1];</script>",
    mode := Mode.auto, thresholdBytes := 3, chunkTargetBytes := 10 }

/-- The same run with the threshold one byte below the payload size. -/
def c7EnvD : RunEnv :=
  { slug := s2p "x", inputExists := true, inputIsFile := true,
    sameFilePath := false, html := s2p "<script>var A = [1];</script>",
    mode := Mode.auto, thresholdBytes := 2, chunkTargetBytes := 10 }

/-! ## Theorems -/

theorem utf8Encode_append (a b : List Nat) :
    utf8Encode (a ++ b) = utf8Encode a ++ utf8Encode b := by
  simp [utf8Encode]

theorem utf8Len_serializeItems (l : List Json) :
    (utf8Encode (serializeItems l)).length = (l.map jsonByteLen).sum + (l.length - 1) := by
  induction l with
  | nil => simp [serializeItems, utf8Encode]
  | cons x xs ih =>
    cases xs with
    | nil => simp [serializeItems, jsonByteLen]
    | cons y rest =>
      rw [serializeItems, utf8Encode_append, utf8Encode_append]
      simp only [List.length_append]
      rw [ih]
      have h44 : (utf8Encode [44]).length = 1 := by decide
      simp only [h44, List.map_cons, List.sum_cons, List.length_cons, jsonByteLen]
      omega

theorem jsonByteLen_arr (l : List Json) : jsonByteLen (Json.arr l) = arrBytes l := by
  show (utf8Encode ([91] ++ serializeItems l ++ [93])).length = _
  rw [utf8Encode_append, utf8Encode_append]
  simp only [List.length_append, utf8Len_serializeItems]
  have h91 : (utf8Encode [91]).length = 1 := by decide
  have h93 : (utf8Encode [93]).length = 1 := by decide
  rw [h91, h93, arrBytes]
  omega

theorem saLoop_cons_empty (t : Int) (i : Json) (rest : List Json) (cb : Nat) :
    saLoop t (i :: rest) [] cb = saLoop t rest [i] (cb + jsonByteLen i) := by
  simp [saLoop]

theorem isEmpty_false_of_ne_nil {α : Type} {l : List α} (h : l ≠ []) : l.isEmpty = false := by
  cases hh : l.isEmpty
  · rfl
  · exact absurd (List.isEmpty_iff.mp hh) h

theorem saLoop_nil (t : Int) (cur : List Json) (cb : Nat) :
    saLoop t [] cur cb = if cur.isEmpty then [] else [cur] := by
  rw [saLoop]

theorem saLoop_cons_close (t : Int) (i : Json) (rest cur : List Json) (cb : Nat)
    (h : cur.isEmpty = false) (hlt : t < ((cb + 1 + jsonByteLen i : Nat) : Int)) :
    saLoop t (i :: rest) cur cb = cur :: saLoop t rest [i] (2 + jsonByteLen i) := by
  have hcond : cur.isEmpty = false ∧
      t < ((cb + (if cur.isEmpty then 0 else 1) + jsonByteLen i : Nat) : Int) := by
    refine ⟨h, ?_⟩
    rw [h]
    simpa using hlt
  rw [saLoop, if_pos hcond]

theorem saLoop_cons_keep (t : Int) (i : Json) (rest cur : List Json) (cb : Nat)
    (h : cur.isEmpty = false) (hge : ¬ t < ((cb + 1 + jsonByteLen i : Nat) : Int)) :
    saLoop t (i :: rest) cur cb = saLoop t rest (cur ++ [i]) (cb + 1 + jsonByteLen i) := by
  have hcond : ¬ (cur.isEmpty = false ∧
      t < ((cb + (if cur.isEmpty then 0 else 1) + jsonByteLen i : Nat) : Int)) := by
    rintro ⟨-, hlt⟩
    rw [h] at hlt
    exact hge (by simpa using hlt)
  rw [saLoop, if_neg hcond]
  have harg : (cb + (if cur.isEmpty then 0 else 1) + jsonByteLen i) = cb + 1 + jsonByteLen i := by
    simp [h]
  rw [harg]

theorem arrBytes_append_one (cur : List Json) (i : Json) (hne : cur ≠ []) :
    arrBytes (cur ++ [i]) = arrBytes cur + 1 + jsonByteLen i := by
  have hlen : 1 ≤ cur.length := List.length_pos.mpr hne
  simp only [arrBytes, List.map_append, List.sum_append, List.length_append,
    List.map_cons, List.sum_cons, List.map_nil, List.sum_nil,
    List.length_cons, List.length_nil]
  omega

theorem saLoop_flatten (t : Int) :
    ∀ (rest current : List Json) (cb : Nat),
      (saLoop t rest current cb).flatten = current ++ rest := by
  intro rest
  induction rest with
  | nil =>
    intro cur cb
    by_cases h : cur.isEmpty
    · simp [saLoop_nil, h, List.isEmpty_iff.mp h]
    · simp [saLoop_nil, h]
  | cons i rest ih =>
    intro cur cb
    by_cases hemp : cur.isEmpty
    · rw [List.isEmpty_iff.mp hemp, saLoop_cons_empty, ih]
      simp
    · have h : cur.isEmpty = false := by simpa using hemp
      by_cases hlt : t < ((cb + 1 + jsonByteLen i : Nat) : Int)
      · rw [saLoop_cons_close t i rest cur cb h hlt, List.flatten_cons, ih]
        simp
      · rw [saLoop_cons_keep t i rest cur cb h hlt, ih]
        simp

theorem saLoop_fragment_nonempty (t : Int) :
    ∀ (rest current : List Json) (cb : Nat), current ≠ [] →
      ∀ c ∈ saLoop t rest current cb, c ≠ [] := by
  intro rest
  induction rest with
  | nil =>
    intro cur cb hcur c hc
    have h : cur.isEmpty = false := isEmpty_false_of_ne_nil hcur
    rw [saLoop_nil] at hc
    simp [h] at hc
    simpa [hc] using hcur
  | cons i rest ih =>
    intro cur cb hcur c hc
    have h : cur.isEmpty = false := isEmpty_false_of_ne_nil hcur
    by_cases hlt : t < ((cb + 1 + jsonByteLen i : Nat) : Int)
    · rw [saLoop_cons_close t i rest cur cb h hlt] at hc
      rcases List.mem_cons.mp hc with hh | hh
      · simpa [hh] using hcur
      · exact ih [i] _ (by simp) c hh
    · rw [saLoop_cons_keep t i rest cur cb h hlt] at hc
      exact ih (cur ++ [i]) _ (by simp) c hc

theorem saLoop_sizes (t : Int) :
    ∀ (rest current : List Json) (cb : Nat),
      cb = arrBytes current →
      (current ≠ [] → ((arrBytes current : Int) ≤ t ∨ ∃ x, current = [x])) →
      ∀ c ∈ saLoop t rest current cb,
        (arrBytes c : Int) ≤ t ∨ ∃ x, c = [x] := by
  intro rest
  induction rest with
  | nil =>
    intro cur cb hcb hinv c hc
    by_cases h : cur.isEmpty
    · rw [saLoop_nil] at hc; simp [h] at hc
    · rw [saLoop_nil] at hc
      simp [h] at hc
      subst hc
      exact hinv fun hh => by simp [hh] at h
  | cons i rest ih =>
    intro cur cb hcb hinv c hc
    by_cases hemp : cur.isEmpty
    · have hnil : cur = [] := List.isEmpty_iff.mp hemp
      subst hnil
      rw [saLoop_cons_empty] at hc
      have hcb2 : cb = 2 := by simpa [arrBytes] using hcb
      subst hcb2
      refine ih [i] _ (by simp [arrBytes]) (fun _ => Or.inr ⟨i, rfl⟩) c hc
    · have h : cur.isEmpty = false := by simpa using hemp
      have hne : cur ≠ [] := fun hh => by simp [hh] at h
      by_cases hlt : t < ((cb + 1 + jsonByteLen i : Nat) : Int)
      · rw [saLoop_cons_close t i rest cur cb h hlt] at hc
        rcases List.mem_cons.mp hc with hh | hh
        · subst hh; exact hinv hne
        · exact ih [i] _ (by simp [arrBytes]) (fun _ => Or.inr ⟨i, rfl⟩) c hh
      · rw [saLoop_cons_keep t i rest cur cb h hlt] at hc
        refine ih (cur ++ [i]) _ ?_ ?_ c hc
        · rw [arrBytes_append_one cur i hne, hcb]
        · intro _
          left
          rw [arrBytes_append_one cur i hne, ← hcb]
          omega

/-- C1 counterexample: the claim's round trip is stated for *every* JSON
array, but an array holding a lone-surrogate string — which the modeled
parser itself produces from the embedded literal `["\ud800"]`, so such a
value is reachable as a candidate value — makes
`split_array_for_target_bytes` raise `UnicodeEncodeError` at
`item_json.encode("utf-8")` instead of returning fragments. -/
theorem c1_counterexample :
    jsonLoads (s2p "[\"\\ud800\"]") = some (Json.arr [Json.str [55296]]) ∧
    split_array_for_target_bytes [Json.str [55296]] 10 = .error .unicodeEncode := by
  refine ⟨rfl, rfl⟩

/-- C1 corrected: for every JSON array whose items serialize to
UTF-8-encodable text (no lone surrogates — every value built from
encodable strings, in particular any value re-read from a valid UTF-8
document without surrogate escapes) and every positive byte target,
`split_array_for_target_bytes` succeeds, concatenating its fragments in
order reproduces the array exactly, the empty array yields exactly one
fragment which is itself empty, and for a nonempty array every fragment is
nonempty (each fragment is then written as a self-contained JSON array by
`write_array_chunks`).  Without the encodability hypothesis the function
raises `UnicodeEncodeError`. -/
theorem c1_array_slicing_round_trip (items : List Json) (targetBytes : Int)
    (hpos : 0 < targetBytes)
    (henc : ∀ it ∈ items, utf8Encodable (serializeChars it) = true) :
    ∃ chunks, split_array_for_target_bytes items targetBytes = .ok chunks ∧
      chunks.flatten = items ∧
      (items = [] → chunks = [[]]) ∧
      (∀ c ∈ chunks, c = [] → items = []) := by
  have hnotle : ¬ targetBytes ≤ 0 := by omega
  cases items with
  | nil =>
    exact ⟨[[]], by simp [split_array_for_target_bytes, hnotle], by simp, fun _ => rfl,
      by intro c hc _; rfl⟩
  | cons i rest =>
    have hall : (i :: rest).all (fun it => utf8Encodable (serializeChars it)) = true :=
      List.all_eq_true.mpr henc
    refine ⟨saLoop targetBytes (i :: rest) [] 2,
      by simp [split_array_for_target_bytes, hnotle, hall], saLoop_flatten _ _ _ _,
      by simp, ?_⟩
    intro c hc hcnil
    rw [saLoop_cons_empty] at hc
    exact absurd hcnil (saLoop_fragment_nonempty _ _ _ _ (by simp) c hc)

/-- C1 witness: the theorem instantiated at the one-element array `[7]`
and target 1. -/
theorem c1_array_slicing_round_trip_witness :
    ∃ chunks, split_array_for_target_bytes [Json.num 7] 1 = .ok chunks ∧
      chunks.flatten = [Json.num 7] ∧
      (([Json.num 7] : List Json) = [] → chunks = [[]]) ∧
      (∀ c ∈ chunks, c = [] → ([Json.num 7] : List Json) = []) :=
  c1_array_slicing_round_trip [Json.num 7] 1 (by decide) (by decide)

/-- C3 counterexample: with the single-element array `[100]` and byte
budget 3, the produced fragment serializes to `[100]` — 5 UTF-8 bytes,
over the budget — although the element's own compact serialization `100`
is 3 bytes, which does **not** exceed the budget.  The claim's only
allowed exception (a single element whose own serialization exceeds the
budget) therefore does not cover this fragment: the two bracket bytes are
part of the fragment overhead the claim ignores. -/
theorem c3_counterexample :
    split_array_for_target_bytes [Json.num 100] 3 = .ok [[Json.num 100]] ∧
    jsonByteLen (Json.num 100) = 3 ∧
    jsonByteLen (Json.arr [Json.num 100]) = 5 ∧
    ¬ ((5 : Int) ≤ 3) := by
  refine ⟨rfl, by decide, by decide, by decide⟩

/-- C3 amended: for items serializing to UTF-8-encodable text (otherwise
the function raises `UnicodeEncodeError` at `item_json.encode("utf-8")`
instead of returning fragments), every fragment's compact serialization
fits in the byte budget, except fragments with at most one element (a
lone oversized element, or the single empty fragment of an empty input
array), whose serialization — element bytes plus the two bracket bytes —
may exceed the budget. -/
theorem c3_array_slicing_byte_bound (items : List Json) (targetBytes : Int)
    (hpos : 0 < targetBytes)
    (henc : ∀ it ∈ items, utf8Encodable (serializeChars it) = true) :
    ∃ chunks, split_array_for_target_bytes items targetBytes = .ok chunks ∧
      ∀ c ∈ chunks, (jsonByteLen (Json.arr c) : Int) ≤ targetBytes ∨ c.length ≤ 1 := by
  have hnotle : ¬ targetBytes ≤ 0 := by omega
  cases items with
  | nil =>
    refine ⟨[[]], by simp [split_array_for_target_bytes, hnotle], ?_⟩
    intro c hc
    simp at hc
    subst hc
    right; simp
  | cons i rest =>
    have hall : (i :: rest).all (fun it => utf8Encodable (serializeChars it)) = true :=
      List.all_eq_true.mpr henc
    refine ⟨saLoop targetBytes (i :: rest) [] 2,
      by simp [split_array_for_target_bytes, hnotle, hall], ?_⟩
    intro c hc
    have := saLoop_sizes targetBytes (i :: rest) [] 2 (by simp [arrBytes]) (by simp) c hc
    rcases this with h | ⟨x, hx⟩
    · left; rw [jsonByteLen_arr]; exact h
    · right; simp [hx]

/-- C3 witness: the amended theorem instantiated at `[100]` with budget 3
(the oversized fragment falls under the at-most-one-element exception). -/
theorem c3_array_slicing_byte_bound_witness :
    ∃ chunks, split_array_for_target_bytes [Json.num 100] 3 = .ok chunks ∧
      ∀ c ∈ chunks, (jsonByteLen (Json.arr c) : Int) ≤ 3 ∨ c.length ≤ 1 :=
  c3_array_slicing_byte_bound [Json.num 100] 3 (by decide) (by decide)

/-- C2 counterexample: the JSON value `"é"` (the one-character string
U+00E9) serializes compactly to the three code points `" é "` whose UTF-8
encoding is 4 bytes; with the positive byte budget 1 the back-off
collapses the second piece to empty, the force-advance rule cuts inside
the two-byte sequence of `é`, and Python's per-chunk decode raises
`UnicodeDecodeError` — so the pieces do not join back to the value and a
piece boundary falls inside a multi-byte code point. -/
theorem c2_counterexample :
    serializeChars (Json.str [233]) = [34, 233, 34] ∧
    utf8Encode [34, 233, 34] = [34, 195, 169, 34] ∧
    split_utf8_text_by_bytes [34, 233, 34] 1 = .error .unicodeDecode := by
  refine ⟨rfl, rfl, rfl⟩

theorem utf8Encode_cons (c : Nat) (cs : List Nat) :
    utf8Encode (c :: cs) = utf8EncodeChar c ++ utf8Encode cs := by
  simp [utf8Encode]

theorem utf8EncodeChar_length_pos (c : Nat) : 1 ≤ (utf8EncodeChar c).length := by
  unfold utf8EncodeChar
  split_ifs <;> simp

theorem utf8EncodeChar_length_le (c : Nat) : (utf8EncodeChar c).length ≤ 4 := by
  unfold utf8EncodeChar
  split_ifs <;> simp

theorem utf8Encode_length_pos (c : Nat) (cs : List Nat) :
    1 ≤ (utf8Encode (c :: cs)).length := by
  rw [utf8Encode_cons]
  have := utf8EncodeChar_length_pos c
  simp only [List.length_append]
  omega

/-- Shape of a single character's UTF-8 encoding: a non-continuation lead
byte followed by at most three continuation bytes. -/
theorem utf8EncodeChar_shape (c : Nat) (hc : c < 1114112) :
    ∃ b t, utf8EncodeChar c = b :: t ∧ isCont b = false ∧
      (∀ x ∈ t, isCont x = true) ∧ t.length ≤ 3 := by
  unfold utf8EncodeChar
  split_ifs with h1 h2 h3
  · exact ⟨c, [], rfl, by simp [isCont]; omega, by simp, by simp⟩
  · refine ⟨192 + c / 64, [128 + c % 64], rfl, by simp [isCont]; omega, ?_, by simp⟩
    intro x hx
    simp at hx
    subst hx
    simp [isCont]
    omega
  · refine ⟨224 + c / 4096, [128 + c / 64 % 64, 128 + c % 64], rfl,
      by simp [isCont]; omega, ?_, by simp⟩
    intro x hx
    simp at hx
    rcases hx with hx | hx <;> subst hx <;> (simp [isCont]; omega)
  · refine ⟨240 + c / 262144, [128 + c / 4096 % 64, 128 + c / 64 % 64, 128 + c % 64], rfl,
      by simp [isCont]; omega, ?_, by simp⟩
    intro x hx
    simp at hx
    rcases hx with hx | hx | hx <;> subst hx <;> (simp [isCont]; omega)

theorem backOff_eq_self (payload : List Nat) (e : Nat)
    (h : ¬ (e < payload.length ∧ isCont (payload.getD e 0) = true)) :
    backOff payload e = e := by
  cases e with
  | zero => rfl
  | succ e => rw [backOff, if_neg h]

theorem backOff_step (payload : List Nat) (e : Nat)
    (h1 : e + 1 < payload.length) (h2 : isCont (payload.getD (e+1) 0) = true) :
    backOff payload (e+1) = backOff payload e := by
  rw [backOff, if_pos ⟨h1, h2⟩]

theorem getD_concat (pre mid rest : List Nat) (k : Nat) (hk : k < mid.length) :
    (pre ++ mid ++ rest).getD (pre.length + k) 0 = mid.getD k 0 := by
  rw [List.append_assoc, List.getD_append_right _ _ _ _ (by omega)]
  rw [Nat.add_sub_cancel_left]
  rw [List.getD_append _ _ _ _ hk]

/-- Backing off from any position inside a character's encoding lands on
the character's first byte. -/
theorem backOff_char (pre suf : List Nat) (b : Nat) (t : List Nat)
    (hb : isCont b = false) (ht : ∀ x ∈ t, isCont x = true) :
    ∀ j, j ≤ t.length → backOff (pre ++ (b :: t) ++ suf) (pre.length + j) = pre.length := by
  intro j
  induction j with
  | zero =>
    intro _
    rw [Nat.add_zero]
    apply backOff_eq_self
    rintro ⟨hlt, hcont⟩
    have hgd : (pre ++ (b :: t) ++ suf).getD pre.length 0 = b := by
      have := getD_concat pre (b :: t) suf 0 (by simp)
      simpa using this
    rw [hgd, hb] at hcont
    exact Bool.false_ne_true hcont
  | succ j ih =>
    intro hj
    have hjlt : j < t.length := hj
    have hlen : pre.length + (j+1) < (pre ++ (b :: t) ++ suf).length := by
      simp only [List.length_append, List.length_cons]
      omega
    have hgd : (pre ++ (b :: t) ++ suf).getD (pre.length + (j+1)) 0 = t.getD j 0 := by
      have := getD_concat pre (b :: t) suf (j+1) (by simp; omega)
      simpa [List.getD_cons_succ] using this
    have hmem : t.getD j 0 ∈ t := by
      rw [List.getD_eq_getElem t 0 hjlt]
      exact List.getElem_mem hjlt
    have hcont : isCont ((pre ++ (b :: t) ++ suf).getD (pre.length + (j+1)) 0) = true := by
      rw [hgd]; exact ht _ hmem
    have hstep : pre.length + (j + 1) = (pre.length + j) + 1 := by omega
    rw [hstep] at hcont hlen ⊢
    rw [backOff_step _ _ hlen hcont]
    exact ih (by omega)

theorem charsWithin_le_length : ∀ (cs : List Nat) (b : Nat), charsWithin cs b ≤ cs.length := by
  intro cs
  induction cs with
  | nil => intro b; simp [charsWithin]
  | cons c cs ih =>
    intro b
    rw [charsWithin]
    split
    · have := ih (b - (utf8EncodeChar c).length)
      simp
      omega
    · simp

theorem blen_take_charsWithin : ∀ (cs : List Nat) (b : Nat),
    (utf8Encode (cs.take (charsWithin cs b))).length ≤ b := by
  intro cs
  induction cs with
  | nil => intro b; simp [charsWithin, utf8Encode]
  | cons c cs ih =>
    intro b
    rw [charsWithin]
    split
    · rw [List.take_succ_cons, utf8Encode_cons, List.length_append]
      have := ih (b - (utf8EncodeChar c).length)
      omega
    · simp [utf8Encode]

theorem blen_take_charsWithin_succ : ∀ (cs : List Nat) (b : Nat),
    charsWithin cs b < cs.length →
    b < (utf8Encode (cs.take (charsWithin cs b + 1))).length := by
  intro cs
  induction cs with
  | nil => intro b h; simp at h
  | cons c cs ih =>
    intro b h
    rw [charsWithin] at h ⊢
    by_cases hfit : (utf8EncodeChar c).length ≤ b
    · rw [if_pos hfit] at h ⊢
      rw [List.take_succ_cons, utf8Encode_cons, List.length_append]
      have := ih (b - (utf8EncodeChar c).length) (by simpa using h)
      omega
    · rw [if_neg hfit] at h ⊢
      rw [List.take_succ_cons, List.take_zero, utf8Encode_cons]
      simp only [List.length_append]
      have : utf8Encode [] = [] := rfl
      simp [utf8Encode]
      omega

theorem take_append_one {α : Type} (l₁ : List α) (d : α) (l₂ : List α) :
    (l₁ ++ d :: l₂).take (l₁.length + 1) = l₁ ++ [d] := by
  induction l₁ with
  | nil => simp
  | cons x xs ih => simpa using ih

/-- Specification of the byte-level chunk loop on a valid UTF-8 payload
with byte budget at least 4: the produced chunks are exactly the UTF-8
encodings of a partition of the remaining characters into nonempty runs
(so every cut point falls on a character boundary and back-off never
collapses a piece). -/
theorem chunkLoop_spec (maxB : Nat) (hmax : 4 ≤ maxB) :
    ∀ (f : Nat) (pre cs : List Nat), cs ≠ [] →
      (∀ c ∈ cs, c < 1114112) →
      (utf8Encode cs).length ≤ f →
      ∃ pieces : List (List Nat),
        chunkLoop (utf8Encode (pre ++ cs)) maxB f (utf8Encode pre).length =
          pieces.map utf8Encode ∧
        pieces.flatten = cs ∧ ∀ p ∈ pieces, p ≠ [] := by
  intro f
  induction f with
  | zero =>
    intro pre cs hne hbound hf
    exfalso
    cases cs with
    | nil => exact hne rfl
    | cons c cs' =>
      have := utf8Encode_length_pos c cs'
      omega
  | succ f ih =>
    intro pre cs hne hbound hf
    have hsplit : utf8Encode (pre ++ cs) = utf8Encode pre ++ utf8Encode cs :=
      utf8Encode_append pre cs
    have hcslen : 1 ≤ (utf8Encode cs).length := by
      cases cs with
      | nil => exact absurd rfl hne
      | cons c cs' => exact utf8Encode_length_pos c cs'
    have hplen : (utf8Encode (pre ++ cs)).length =
        (utf8Encode pre).length + (utf8Encode cs).length := by
      rw [hsplit]; simp
    have hidxlt : (utf8Encode pre).length < (utf8Encode (pre ++ cs)).length := by omega
    rw [chunkLoop, if_pos hidxlt]
    have hdropidx : (utf8Encode (pre ++ cs)).drop (utf8Encode pre).length = utf8Encode cs := by
      rw [hsplit, List.drop_left]
    by_cases hcase : (utf8Encode (pre ++ cs)).length ≤ (utf8Encode pre).length + maxB
    · -- the whole remainder fits: final chunk
      have hback : backOff (utf8Encode (pre ++ cs)) (utf8Encode (pre ++ cs)).length =
          (utf8Encode (pre ++ cs)).length := by
        apply backOff_eq_self
        rintro ⟨hlt, -⟩
        omega
      have hend : chunkEnd (utf8Encode (pre ++ cs)) maxB (utf8Encode pre).length =
          (utf8Encode (pre ++ cs)).length := by
        rw [chunkEnd]
        have hmin : min ((utf8Encode pre).length + maxB) (utf8Encode (pre ++ cs)).length =
            (utf8Encode (pre ++ cs)).length := by omega
        rw [hmin, hback, if_neg (by omega)]
      refine ⟨[cs], ?_, by simp, ?_⟩
      · rw [hend]
        have hrest : chunkLoop (utf8Encode (pre ++ cs)) maxB f
            (utf8Encode (pre ++ cs)).length = [] := by
          cases f with
          | zero => rfl
          | succ f' => rw [chunkLoop, if_neg (by omega)]
        rw [hrest, hdropidx]
        have htk : (utf8Encode (pre ++ cs)).length - (utf8Encode pre).length =
            (utf8Encode cs).length := by omega
        rw [htk, List.take_length]
        simp
      · intro p hp
        simp at hp
        subst hp
        exact hne
    · -- a proper prefix of characters forms this chunk
      push_neg at hcase
      have hk1 : 1 ≤ charsWithin cs maxB := by
        cases cs with
        | nil => exact absurd rfl hne
        | cons c cs' =>
          have h4 : (utf8EncodeChar c).length ≤ maxB :=
            le_trans (utf8EncodeChar_length_le c) hmax
          rw [charsWithin, if_pos h4]
          omega
      have hkle : charsWithin cs maxB ≤ cs.length := charsWithin_le_length cs maxB
      have hDle : (utf8Encode (cs.take (charsWithin cs maxB))).length ≤ maxB :=
        blen_take_charsWithin cs maxB
      have hklt : charsWithin cs maxB < cs.length := by
        by_contra hge
        have hkeq : charsWithin cs maxB = cs.length := le_antisymm hkle (le_of_not_lt hge)
        rw [hkeq, List.take_length] at hDle
        omega
      have hDsucc : maxB < (utf8Encode (cs.take (charsWithin cs maxB + 1))).length :=
        blen_take_charsWithin_succ cs maxB hklt
      obtain ⟨d, rest, hdr⟩ : ∃ d rest, cs.drop (charsWithin cs maxB) = d :: rest := by
        cases hdc : cs.drop (charsWithin cs maxB) with
        | nil =>
          exfalso
          have := congrArg List.length hdc
          simp [List.length_drop] at this
          omega
        | cons d rest => exact ⟨d, rest, rfl⟩
      have hcs : cs = cs.take (charsWithin cs maxB) ++ (d :: rest) := by
        rw [← hdr, List.take_append_drop]
      have hlen_take : (cs.take (charsWithin cs maxB)).length = charsWithin cs maxB := by
        rw [List.length_take]
        omega
      have hget : cs[charsWithin cs maxB]? = some d := by
        rw [← List.head?_drop, hdr]
        rfl
      have htako : cs.take (charsWithin cs maxB + 1) = cs.take (charsWithin cs maxB) ++ [d] := by
        rw [List.take_succ, hget]
        rfl
      have hd_lt : d < 1114112 := hbound d (by rw [hcs]; exact List.mem_append_right _ (by simp))
      obtain ⟨b, t, henc, hbnc, htc, htlen⟩ := utf8EncodeChar_shape d hd_lt
      have henclen : (utf8EncodeChar d).length = 1 + t.length := by
        rw [henc]
        simp only [List.length_cons]
        omega
      have hDsucc' : maxB <
          (utf8Encode (cs.take (charsWithin cs maxB))).length + 1 + t.length := by
        rw [htako, utf8Encode_append] at hDsucc
        simp only [List.length_append] at hDsucc
        have h1 : (utf8Encode [d]).length = 1 + t.length := by
          simp [utf8Encode, henc]
          omega
        omega
      have hD1 : 1 ≤ (utf8Encode (cs.take (charsWithin cs maxB))).length := by
        have htkne : cs.take (charsWithin cs maxB) ≠ [] := by
          intro hnil
          have := congrArg List.length hnil
          rw [hlen_take] at this
          simp at this
          omega
        cases htk : cs.take (charsWithin cs maxB) with
        | nil => exact absurd htk htkne
        | cons c0 cs0 => exact utf8Encode_length_pos c0 cs0
      -- payload decomposition around character d
      have hpay2 : utf8Encode (pre ++ cs) =
          (utf8Encode pre ++ utf8Encode (cs.take (charsWithin cs maxB))) ++ (b :: t) ++
            utf8Encode rest := by
        conv_lhs => rw [hcs]
        rw [← henc]
        rw [← List.append_assoc]
        rw [utf8Encode_append, utf8Encode_append, utf8Encode_cons]
        simp [List.append_assoc]
      have hpre2len : (utf8Encode pre ++ utf8Encode (cs.take (charsWithin cs maxB))).length =
          (utf8Encode pre).length + (utf8Encode (cs.take (charsWithin cs maxB))).length := by
        simp
      have hback : backOff (utf8Encode (pre ++ cs)) ((utf8Encode pre).length + maxB) =
          (utf8Encode pre).length + (utf8Encode (cs.take (charsWithin cs maxB))).length := by
        have harg : (utf8Encode pre ++ utf8Encode (cs.take (charsWithin cs maxB))).length +
            (maxB - (utf8Encode (cs.take (charsWithin cs maxB))).length) =
            (utf8Encode pre).length + maxB := by
          rw [hpre2len]; omega
        rw [hpay2, ← harg,
          backOff_char _ _ b t hbnc htc _ (by omega), hpre2len]
      have hendB : chunkEnd (utf8Encode (pre ++ cs)) maxB (utf8Encode pre).length =
          (utf8Encode pre).length + (utf8Encode (cs.take (charsWithin cs maxB))).length := by
        rw [chunkEnd]
        have hmin : min ((utf8Encode pre).length + maxB) (utf8Encode (pre ++ cs)).length =
            (utf8Encode pre).length + maxB := by omega
        rw [hmin, hback, if_neg (by omega)]
      have hchunk : ((utf8Encode (pre ++ cs)).drop (utf8Encode pre).length).take
          ((utf8Encode pre).length + (utf8Encode (cs.take (charsWithin cs maxB))).length -
            (utf8Encode pre).length) = utf8Encode (cs.take (charsWithin cs maxB)) := by
        rw [hdropidx, Nat.add_sub_cancel_left]
        have hsplit2 : utf8Encode cs =
            utf8Encode (cs.take (charsWithin cs maxB)) ++
              utf8Encode (cs.drop (charsWithin cs maxB)) := by
          rw [← utf8Encode_append, List.take_append_drop]
        rw [hsplit2, List.take_left]
      have hfrec : (utf8Encode (d :: rest)).length ≤ f := by
        have heq : utf8Encode cs =
            utf8Encode (cs.take (charsWithin cs maxB)) ++ utf8Encode (d :: rest) := by
          conv_lhs => rw [hcs]
          rw [utf8Encode_append]
        have := congrArg List.length heq
        simp only [List.length_append] at this
        omega
      have hrecpre : (utf8Encode (pre ++ cs.take (charsWithin cs maxB))).length =
          (utf8Encode pre).length + (utf8Encode (cs.take (charsWithin cs maxB))).length := by
        rw [utf8Encode_append]; simp
      have hpay3 : utf8Encode ((pre ++ cs.take (charsWithin cs maxB)) ++ (d :: rest)) =
          utf8Encode (pre ++ cs) := by
        congr 1
        rw [List.append_assoc, ← hcs]
      obtain ⟨pieces', hp1, hp2, hp3⟩ := ih (pre ++ cs.take (charsWithin cs maxB)) (d :: rest)
        (by simp)
        (fun c hc => hbound c (by rw [hcs]; exact List.mem_append_right _ hc))
        hfrec
      rw [hpay3, hrecpre] at hp1
      refine ⟨cs.take (charsWithin cs maxB) :: pieces', ?_, ?_, ?_⟩
      · rw [hendB, hchunk, List.map_cons, hp1]
      · rw [List.flatten_cons, hp2, ← hcs]
      · intro p hp
        rcases List.mem_cons.mp hp with h | h
        · subst h
          intro hnil
          have := congrArg List.length hnil
          rw [hlen_take] at this
          simp at this
          omega
        · exact hp3 p h

/-- Decoding inverts encoding for scalar text, for any sufficient fuel. -/
theorem utf8DecodeLoop_encode : ∀ (cs : List Nat), (∀ c ∈ cs, isScalar c) →
    ∀ f, (utf8Encode cs).length ≤ f →
    utf8DecodeLoop f (utf8Encode cs) = some cs := by
  intro cs
  induction cs with
  | nil =>
    intro _ f _
    show utf8DecodeLoop f [] = some []
    cases f <;> rfl
  | cons c cs ih =>
    intro hsc f hf
    have hc : isScalar c := hsc c (by simp)
    have hcs : ∀ x ∈ cs, isScalar x := fun x hx => hsc x (by simp [hx])
    have hcmax : c < 1114112 := by
      rcases hc with h | ⟨-, h⟩ <;> omega
    rw [utf8Encode_cons]
    by_cases h1 : c < 128
    · have henc : utf8EncodeChar c = [c] := by rw [utf8EncodeChar, if_pos h1]
      rw [utf8Encode_cons, henc] at hf
      rw [henc]
      simp only [List.cons_append, List.nil_append, List.length_append,
        List.length_cons] at hf ⊢
      cases f with
      | zero => exfalso; simp at hf
      | succ f' =>
        rw [utf8DecodeLoop, if_pos h1, ih hcs f' (by omega)]
        rfl
    · by_cases h2 : c < 2048
      · have henc : utf8EncodeChar c = [192 + c / 64, 128 + c % 64] := by
          rw [utf8EncodeChar, if_neg h1, if_pos h2]
        rw [utf8Encode_cons, henc] at hf
        rw [henc]
        simp only [List.cons_append, List.nil_append, List.length_append,
          List.length_cons] at hf ⊢
        cases f with
        | zero => exfalso; simp at hf
        | succ f' =>
          rw [utf8DecodeLoop, if_neg (by omega), if_neg (by omega), if_pos (by omega)]
          simp only [List.getD_cons_zero, List.length_cons, List.drop_succ_cons,
            List.drop_zero]
          have hcont : isCont (128 + c % 64) = true := by
            simp [isCont]; omega
          rw [if_pos ⟨by omega, hcont⟩]
          have hval : (192 + c / 64 - 192) * 64 + (128 + c % 64 - 128) = c := by omega
          rw [hval, ih hcs f' (by omega)]
          rfl
      · by_cases h3 : c < 65536
        · have henc : utf8EncodeChar c = [224 + c / 4096, 128 + c / 64 % 64, 128 + c % 64] := by
            rw [utf8EncodeChar, if_neg h1, if_neg h2, if_pos h3]
          rw [utf8Encode_cons, henc] at hf
          rw [henc]
          simp only [List.cons_append, List.nil_append, List.length_append,
            List.length_cons] at hf ⊢
          cases f with
          | zero => exfalso; simp at hf
          | succ f' =>
            rw [utf8DecodeLoop, if_neg (by omega), if_neg (by omega), if_neg (by omega),
              if_pos (by omega)]
            simp only [List.getD_cons_zero, List.getD_cons_succ, List.length_cons,
              List.drop_succ_cons, List.drop_zero]
            have hcont1 : isCont (128 + c / 64 % 64) = true := by
              simp [isCont]; omega
            have hcont2 : isCont (128 + c % 64) = true := by
              simp [isCont]; omega
            rw [if_pos ⟨by omega, hcont1, hcont2⟩]
            have hval : (224 + c / 4096 - 224) * 4096 + (128 + c / 64 % 64 - 128) * 64 +
                (128 + c % 64 - 128) = c := by omega
            rw [hval]
            have hrange : 2048 ≤ c ∧ ¬ (55296 ≤ c ∧ c < 57344) := by
              refine ⟨by omega, ?_⟩
              rcases hc with h | ⟨hh, -⟩ <;> omega
            rw [if_pos hrange, ih hcs f' (by omega)]
            rfl
        · have henc : utf8EncodeChar c =
              [240 + c / 262144, 128 + c / 4096 % 64, 128 + c / 64 % 64, 128 + c % 64] := by
            rw [utf8EncodeChar, if_neg h1, if_neg h2, if_neg h3]
          rw [utf8Encode_cons, henc] at hf
          rw [henc]
          simp only [List.cons_append, List.nil_append, List.length_append,
            List.length_cons] at hf ⊢
          cases f with
          | zero => exfalso; simp at hf
          | succ f' =>
            rw [utf8DecodeLoop, if_neg (by omega), if_neg (by omega), if_neg (by omega),
              if_neg (by omega), if_pos (by omega)]
            simp only [List.getD_cons_zero, List.getD_cons_succ, List.length_cons,
              List.drop_succ_cons, List.drop_zero]
            have hcont1 : isCont (128 + c / 4096 % 64) = true := by
              simp [isCont]; omega
            have hcont2 : isCont (128 + c / 64 % 64) = true := by
              simp [isCont]; omega
            have hcont3 : isCont (128 + c % 64) = true := by
              simp [isCont]; omega
            rw [if_pos ⟨by omega, hcont1, hcont2, hcont3⟩]
            have hval : (240 + c / 262144 - 240) * 262144 + (128 + c / 4096 % 64 - 128) * 4096 +
                (128 + c / 64 % 64 - 128) * 64 + (128 + c % 64 - 128) = c := by omega
            rw [hval]
            rw [if_pos (by omega), ih hcs f' (by omega)]
            rfl

theorem utf8Decode_encode (cs : List Nat) (h : ∀ c ∈ cs, isScalar c) :
    utf8Decode (utf8Encode cs) = some cs :=
  utf8DecodeLoop_encode cs h _ le_rfl

theorem mapM_utf8Decode_encode (pieces : List (List Nat))
    (h : ∀ p ∈ pieces, ∀ c ∈ p, isScalar c) :
    (pieces.map utf8Encode).mapM utf8Decode = some pieces := by
  induction pieces with
  | nil => rfl
  | cons p ps ih =>
    rw [List.map_cons, List.mapM_cons, utf8Decode_encode p (h p (by simp)),
      ih (fun q hq => h q (by simp [hq]))]
    rfl

theorem backOff_le (payload : List Nat) : ∀ e, backOff payload e ≤ e := by
  intro e
  induction e with
  | zero => exact le_rfl
  | succ e ih =>
    rw [backOff]
    split
    · exact le_trans ih (by omega)
    · exact le_rfl

theorem chunkEnd_le (payload : List Nat) (maxB idx : Nat) :
    chunkEnd payload maxB idx ≤ idx + maxB := by
  unfold chunkEnd
  have h1 : min (idx + maxB) payload.length ≤ idx + maxB := min_le_left _ _
  have h2 := backOff_le payload (min (idx + maxB) payload.length)
  split <;> omega

theorem chunkLoop_chunk_le (payload : List Nat) (maxB : Nat) :
    ∀ (f idx : Nat), ∀ ch ∈ chunkLoop payload maxB f idx, ch.length ≤ maxB := by
  intro f
  induction f with
  | zero => intro idx ch hch; cases hch
  | succ f ih =>
    intro idx ch hch
    rw [chunkLoop] at hch
    split at hch
    · rcases List.mem_cons.mp hch with rfl | hmem
      · have h1 : ((payload.drop idx).take (chunkEnd payload maxB idx - idx)).length ≤
            chunkEnd payload maxB idx - idx := by
          simp [List.length_take]
        have h2 := chunkEnd_le payload maxB idx
        omega
      · exact ih (chunkEnd payload maxB idx) ch hmem
    · cases hch

/-- C2 amended: for every text made of Unicode scalar values — in
particular every compact JSON serialization the script produces — and
every byte budget of at least 4 (one UTF-8 character never exceeds 4
bytes, so back-off always lands inside the budget and the force-advance
branch is never taken), `split_utf8_text_by_bytes` succeeds, joining its
pieces in order reproduces the text exactly (so parsing the joined
serialization reproduces the value), every byte-level piece boundary
falls on a character boundary — the byte chunks are exactly the UTF-8
encodings of the returned pieces — and each piece's UTF-8 encoding is at
most the budget in bytes. -/
theorem c2_text_split_round_trip (text : List Nat) (maxBytes : Int)
    (hsc : ∀ c ∈ text, isScalar c) (hB : 4 ≤ maxBytes) :
    ∃ parts, split_utf8_text_by_bytes text maxBytes = .ok parts ∧
      parts.flatten = text ∧
      (text ≠ [] →
        chunkLoop (utf8Encode text) maxBytes.toNat (utf8Encode text).length 0 =
          parts.map utf8Encode) ∧
      (∀ p ∈ parts, ((utf8Encode p).length : Int) ≤ maxBytes) := by
  have hBle : ¬ maxBytes ≤ 0 := by omega
  cases htext : text with
  | nil =>
    refine ⟨[[]], ?_, by simp, by simp, ?_⟩
    · rw [split_utf8_text_by_bytes, if_neg hBle]
      rfl
    · intro p hp
      simp at hp
      subst hp
      have h0 : (utf8Encode ([] : List Nat)).length = 0 := rfl
      rw [h0]
      omega
  | cons c cs =>
    have hmax4 : 4 ≤ maxBytes.toNat := by omega
    have hbound : ∀ x ∈ (c :: cs), x < 1114112 := by
      intro x hx
      have := hsc x (htext ▸ hx)
      rcases this with h | ⟨-, h⟩ <;> omega
    obtain ⟨pieces, hloop, hflat, hne⟩ :=
      chunkLoop_spec maxBytes.toNat hmax4 (utf8Encode (c :: cs)).length [] (c :: cs)
        (by simp) hbound le_rfl
    simp only [List.nil_append] at hloop
    have hlen0 : ((utf8Encode ([] : List Nat)).length) = 0 := rfl
    rw [hlen0] at hloop
    have hscal : ∀ p ∈ pieces, ∀ x ∈ p, isScalar x := by
      intro p hp x hx
      apply hsc
      rw [htext, ← hflat]
      exact List.mem_flatten.mpr ⟨p, hp, hx⟩
    refine ⟨pieces, ?_, hflat, fun _ => hloop, ?_⟩
    · rw [split_utf8_text_by_bytes, if_neg hBle]
      have hlenpos : ¬ (utf8Encode (c :: cs)).length = 0 := by
        have := utf8Encode_length_pos c cs
        omega
      rw [if_neg hlenpos, hloop, mapM_utf8Decode_encode pieces hscal]
    · intro p hp
      have hmem : utf8Encode p ∈ chunkLoop (utf8Encode (c :: cs)) maxBytes.toNat
          (utf8Encode (c :: cs)).length 0 := by
        rw [hloop]
        exact List.mem_map_of_mem _ hp
      have := chunkLoop_chunk_le (utf8Encode (c :: cs)) maxBytes.toNat _ _ _ hmem
      omega

/-- C2 witness: the amended theorem instantiated at the text `["é"]`
serialization (code points `" é "`) and budget 4. -/
theorem c2_text_split_round_trip_witness :
    ∃ parts, split_utf8_text_by_bytes [34, 233, 34] 4 = .ok parts ∧
      parts.flatten = [34, 233, 34] ∧
      (([34, 233, 34] : List Nat) ≠ [] →
        chunkLoop (utf8Encode [34, 233, 34]) (4 : Int).toNat
          (utf8Encode [34, 233, 34]).length 0 = parts.map utf8Encode) ∧
      (∀ p ∈ parts, ((utf8Encode p).length : Int) ≤ 4) :=
  c2_text_split_round_trip [34, 233, 34] 4 (by decide) (by decide)

theorem scanWhile_ge (p : Nat → Bool) (s : List Nat) :
    ∀ (f pos : Nat), pos ≤ scanWhile p s f pos := by
  intro f
  induction f with
  | zero => intro pos; rw [scanWhile]
  | succ f ih =>
    intro pos
    rw [scanWhile]
    split
    · exact le_trans (by omega) (ih (pos + 1))
    · exact le_rfl

theorem skip_whitespace_ge (text : List Nat) (pos : Nat) :
    pos ≤ skip_whitespace text pos :=
  scanWhile_ge pyIsSpace text (text.length + 1) pos

theorem daStmtEnd_ge (body : List Nat) (valueEnd : Nat) :
    valueEnd ≤ daStmtEnd body valueEnd := by
  unfold daStmtEnd
  have := skip_whitespace_ge body valueEnd
  split <;> omega

theorem matchIdent_gt (s : List Nat) (pos e : Nat) (h : matchIdent s pos = some e) :
    pos < e := by
  unfold matchIdent at h
  split at h
  · cases h
    have := scanWhile_ge isIdentChar s (s.length + 1) (pos + 1)
    omega
  · cases h

theorem matchDeclAt_spec (s : List Nat) (i : Nat) (m : AMatch)
    (h : matchDeclAt s i = some m) : m.start = i ∧ i < m.stop := by
  unfold matchDeclAt at h
  split at h
  · cases h
  · rename_i kw hkw
    split at h
    · cases h
    · split at h
      · cases h
      · rename_i identEnd hid
        split at h
        · cases h
          have h2 := matchIdent_gt s _ identEnd hid
          have h3 := scanWhile_ge pyIsSpace s (s.length + 1) identEnd
          have h4 := scanWhile_ge pyIsSpace s (s.length + 1)
            (scanWhile pyIsSpace s (s.length + 1) identEnd + 1)
          have h1 := scanWhile_ge pyIsSpace s (s.length + 1) (i + kw.length)
          refine ⟨rfl, ?_⟩
          show i < scanWhile pyIsSpace s (s.length + 1)
            (scanWhile pyIsSpace s (s.length + 1) identEnd + 1)
          omega
        · cases h

theorem matchWindowAt_spec (s : List Nat) (i : Nat) (m : AMatch)
    (h : matchWindowAt s i = some m) : m.start = i ∧ i < m.stop := by
  unfold matchWindowAt at h
  split at h
  · split at h
    · cases h
    · rename_i identEnd hid
      split at h
      · cases h
        have h2 := matchIdent_gt s _ identEnd hid
        have h3 := scanWhile_ge pyIsSpace s (s.length + 1) identEnd
        have h4 := scanWhile_ge pyIsSpace s (s.length + 1)
          (scanWhile pyIsSpace s (s.length + 1) identEnd + 1)
        refine ⟨rfl, ?_⟩
        show i < scanWhile pyIsSpace s (s.length + 1)
          (scanWhile pyIsSpace s (s.length + 1) identEnd + 1)
        omega
      · cases h
  · cases h

theorem matchAt_spec (s : List Nat) (i : Nat) (m : AMatch)
    (h : matchAt s i = some m) : m.start = i ∧ i < m.stop := by
  unfold matchAt at h
  cases hd : matchDeclAt s i with
  | some m' =>
    rw [hd] at h
    cases h
    exact matchDeclAt_spec s i m hd
  | none =>
    rw [hd] at h
    exact matchWindowAt_spec s i m h

theorem searchLoop_spec (s : List Nat) :
    ∀ (f pos : Nat) (m : AMatch), searchLoop s f pos = some m →
      pos ≤ m.start ∧ m.start < m.stop := by
  intro f
  induction f with
  | zero => intro pos m h; cases h
  | succ f ih =>
    intro pos m h
    rw [searchLoop] at h
    cases hm : matchAt s pos with
    | some m' =>
      rw [hm] at h
      cases h
      obtain ⟨h1, h2⟩ := matchAt_spec s pos m hm
      omega
    | none =>
      rw [hm] at h
      obtain ⟨h1, h2⟩ := ih (pos + 1) m h
      omega

theorem assignmentSearch_spec (s : List Nat) (pos : Nat) (m : AMatch)
    (h : assignmentSearch s pos = some m) : pos ≤ m.start ∧ m.start < m.stop :=
  searchLoop_spec s _ pos m h

theorem assignmentSearch_none_of_gt (s : List Nat) (pos : Nat) (h : s.length < pos) :
    assignmentSearch s pos = none := by
  unfold assignmentSearch
  have hz : s.length + 1 - pos = 0 := by omega
  rw [hz]
  rfl

theorem daStep_cases (body : List Nat) (base sp cu : Nat) (hcu : cu ≤ sp) :
    daStep body base sp cu = .halt ∨
    (∃ n, daStep body base sp cu = .skipTo n ∧ sp < n) ∨
    (∃ c n, daStep body base sp cu = .emit c n ∧ sp < n) := by
  cases hs : assignmentSearch body sp with
  | none =>
    left
    unfold daStep
    rw [hs]
  | some m =>
    obtain ⟨hge, hlt⟩ := assignmentSearch_spec body sp m hs
    unfold daStep
    simp only [hs]
    rw [if_neg (by omega)]
    split
    · cases hd : jsonRawDecode (body.drop (skip_whitespace body m.stop)) with
      | none =>
        right; left
        exact ⟨m.stop, rfl, by omega⟩
      | some r =>
        obtain ⟨v, relEnd⟩ := r
        right; right
        refine ⟨_, _, rfl, ?_⟩
        have h1 := skip_whitespace_ge body m.stop
        have h2 := daStmtEnd_ge body (skip_whitespace body m.stop + relEnd)
        omega
    · right; left
      exact ⟨m.stop, rfl, by omega⟩

theorem daLoop_total (body : List Nat) (base : Nat) :
    ∀ (f sp cu : Nat), cu ≤ sp →
      body.length + 2 - min sp (body.length + 1) ≤ f →
      ∃ l, daLoop body base f sp cu = some l := by
  intro f
  induction f with
  | zero =>
    intro sp cu hcu hf
    exfalso
    have : min sp (body.length + 1) ≤ body.length + 1 := min_le_right _ _
    omega
  | succ f ih =>
    intro sp cu hcu hf
    by_cases hsp : body.length < sp
    · refine ⟨[], ?_⟩
      have hh : daStep body base sp cu = .halt := by
        unfold daStep
        rw [assignmentSearch_none_of_gt body sp hsp]
      rw [daLoop, hh]
    · push_neg at hsp
      rcases daStep_cases body base sp cu hcu with h | ⟨n, h, hn⟩ | ⟨c, n, h, hn⟩
      · exact ⟨[], by rw [daLoop, h]⟩
      · obtain ⟨l, hl⟩ := ih n cu (by omega) (by
          have hmn : min sp (body.length + 1) = sp := by omega
          have hmn2 : sp + 1 ≤ min n (body.length + 1) ∨ body.length + 1 ≤ min n (body.length + 1) := by
            rcases le_or_lt n (body.length + 1) with hc | hc
            · left; rw [min_eq_left hc]; omega
            · right; rw [min_eq_right (by omega)]
          omega)
        exact ⟨l, by rw [daLoop, h]; exact hl⟩
      · obtain ⟨l, hl⟩ := ih n n le_rfl (by
          have hmn : min sp (body.length + 1) = sp := by omega
          have hmn2 : sp + 1 ≤ min n (body.length + 1) ∨ body.length + 1 ≤ min n (body.length + 1) := by
            rcases le_or_lt n (body.length + 1) with hc | hc
            · left; rw [min_eq_left hc]; omega
            · right; rw [min_eq_right (by omega)]
          omega)
        refine ⟨c :: l, ?_⟩
        rw [daLoop, h]
        show (daLoop body base f n n).map (c :: ·) = some (c :: l)
        rw [hl]
        rfl

/-- C4 counterexample: on the script body `const A = 5;` the anchor
matches with span `[0, 10)` but the following text `5;` is not a JSON
value starting with `[` or `{`; the scan then resumes at offset 10 — the
match's *end* — not strictly after the match's start as the claim states
(the claim's "not at or after the match's end" fails because the resume
position equals the end). -/
theorem c4_counterexample :
    assignmentSearch (s2p "const A = 5;") 0 =
      some { start := 0, stop := 10, isWindow := false,
             declKind := some (s2p "const"), name := s2p "A" } ∧
    daStep (s2p "const A = 5;") 0 0 0 = .skipTo 10 ∧
    ¬ (10 < 10) := by
  refine ⟨by decide, rfl, by decide⟩

/-- C4 amended: when an anchor match is not followed (after optional
whitespace) by `[` or `{`, or the JSON decode of the following text
fails, the match is discarded and scanning resumes exactly at the failed
match's end offset (which is strictly after its start); and the scan
always terminates — with fuel `length + 2` the loop always returns. -/
theorem c4_scan_resumption_and_termination (body : List Nat) (base : Nat) :
    (∀ (sp cu : Nat) (m : AMatch), cu ≤ sp → assignmentSearch body sp = some m →
      (¬ (skip_whitespace body m.stop < body.length ∧
          (body.getD (skip_whitespace body m.stop) 0 = 91 ∨
           body.getD (skip_whitespace body m.stop) 0 = 123)) ∨
        jsonRawDecode (body.drop (skip_whitespace body m.stop)) = none) →
      daStep body base sp cu = .skipTo m.stop ∧ m.start < m.stop) ∧
    ∃ l, daLoop body base (body.length + 2) 0 0 = some l := by
  constructor
  · intro sp cu m hcu hs hfail
    obtain ⟨hge, hlt⟩ := assignmentSearch_spec body sp m hs
    refine ⟨?_, hlt⟩
    unfold daStep
    simp only [hs]
    rw [if_neg (by omega)]
    rcases hfail with hfail | hfail
    · rw [if_neg hfail]
    · by_cases hcond : skip_whitespace body m.stop < body.length ∧
          (body.getD (skip_whitespace body m.stop) 0 = 91 ∨
           body.getD (skip_whitespace body m.stop) 0 = 123)
      · rw [if_pos hcond, hfail]
      · rw [if_neg hcond]
  · exact daLoop_total body base (body.length + 2) 0 0 le_rfl (by simp)

/-- C4 witness: the amended theorem applied to the body `const A = 5;`:
the failed match with span `[0, 10)` makes the scan resume at 10, and the
whole scan terminates. -/
theorem c4_scan_resumption_witness :
    daStep (s2p "const A = 5;") 0 0 0 = .skipTo 10 ∧
    ∃ l, daLoop (s2p "const A = 5;") 0 ((s2p "const A = 5;").length + 2) 0 0 = some l := by
  have h := c4_scan_resumption_and_termination (s2p "const A = 5;") 0
  refine ⟨?_, h.2⟩
  have hm := h.1 0 0
    { start := 0, stop := 10, isWindow := false,
      declKind := some (s2p "const"), name := s2p "A" }
    le_rfl (by decide) (Or.inl (by decide))
  exact hm.1

theorem foldl_splice_append (t : List Nat) :
    ∀ (l : List Replacement) (h : List Nat),
      l.Pairwise (fun a b => b.stop ≤ a.start) →
      (∀ r ∈ l, r.start ≤ r.stop) →
      (∀ r ∈ l, r.stop ≤ h.length) →
      l.foldl splice (h ++ t) = l.foldl splice h ++ t := by
  intro l
  induction l with
  | nil => intro h _ _ _; rfl
  | cons r l ih =>
    intro h hchain hse hstop
    have hr1 : r.stop ≤ h.length := hstop r (by simp)
    have hr2 : r.start ≤ r.stop := hse r (by simp)
    rw [List.foldl_cons, List.foldl_cons]
    have hsp : splice (h ++ t) r = splice h r ++ t := by
      unfold splice
      rw [List.take_append_of_le_length (by omega), List.drop_append_of_le_length (by omega)]
      simp [List.append_assoc]
    rw [hsp]
    have hlen : r.start ≤ (splice h r).length := by
      unfold splice
      simp only [List.length_append, List.length_take]
      omega
    refine ih (splice h r) (List.Pairwise.sublist (List.sublist_cons_self r l) hchain)
      (fun x hx => hse x (by simp [hx])) ?_
    intro x hx
    have := (List.pairwise_cons.mp hchain).1 x hx
    omega

theorem simulFrom_snoc (html : List Nat) (x : Replacement) :
    ∀ (ys : List Replacement) (pos : Nat),
      (∀ r ∈ ys, r.stop ≤ x.start) →
      (∀ r ∈ ys, r.start ≤ r.stop) →
      simulFrom html pos (ys ++ [x]) =
        simulFrom (html.take x.start) pos ys ++ x.text ++ html.drop x.stop := by
  intro ys
  induction ys with
  | nil =>
    intro pos _ _
    show (html.drop pos).take (x.start - pos) ++ x.text ++ (html.drop x.stop).drop 0 =
      (html.take x.start).drop pos ++ x.text ++ html.drop x.stop
    rw [List.drop_take, List.drop_zero]
  | cons r ys ih =>
    intro pos hstop hse
    have hr : r.stop ≤ x.start := hstop r (by simp)
    have hr2 : r.start ≤ r.stop := hse r (by simp)
    show (html.drop pos).take (r.start - pos) ++ r.text ++ simulFrom html r.stop (ys ++ [x]) =
      ((html.take x.start).drop pos).take (r.start - pos) ++ r.text ++
        simulFrom (html.take x.start) r.stop ys ++ x.text ++ html.drop x.stop
    rw [ih r.stop (fun q hq => hstop q (by simp [hq])) (fun q hq => hse q (by simp [hq]))]
    have hseg : ((html.take x.start).drop pos).take (r.start - pos) =
        (html.drop pos).take (r.start - pos) := by
      rw [List.drop_take, List.take_take]
      congr 1
      omega
    rw [hseg]
    simp [List.append_assoc]

theorem foldl_splice_desc :
    ∀ (asc : List Replacement) (html : List Nat),
      asc.Pairwise (fun a b => a.stop ≤ b.start ∧ a.start < b.start) →
      (∀ r ∈ asc, r.start ≤ r.stop ∧ r.stop ≤ html.length) →
      asc.reverse.foldl splice html = simulFrom html 0 asc := by
  intro asc
  induction asc using List.reverseRecOn with
  | nil =>
    intro html _ _
    show html = html.drop 0
    rw [List.drop_zero]
  | append_singleton ys x ih =>
    intro html hchain hwf
    obtain ⟨hxse, hxlen⟩ := hwf x (by simp)
    have hys_rel : ∀ r ∈ ys, r.stop ≤ x.start ∧ r.start < x.start := by
      intro r hr
      have := (List.pairwise_append.mp hchain).2.2 r hr x (by simp)
      exact this
    have hys_chain : ys.Pairwise (fun a b => a.stop ≤ b.start ∧ a.start < b.start) :=
      (List.pairwise_append.mp hchain).1
    rw [List.reverse_append, List.reverse_singleton, List.singleton_append, List.foldl_cons]
    have hsplice : splice html x = html.take x.start ++ (x.text ++ html.drop x.stop) := by
      unfold splice
      simp [List.append_assoc]
    rw [hsplice]
    rw [foldl_splice_append (x.text ++ html.drop x.stop) ys.reverse (html.take x.start)
      (List.pairwise_reverse.mpr (hys_chain.imp (fun hab => hab.1)))
      (fun r hr => (hwf r (by simp at hr; simp [hr])).1)
      ?hstop]
    case hstop =>
      intro r hr
      simp only [List.mem_reverse] at hr
      have h1 := (hys_rel r hr).1
      simp only [List.length_take]
      omega
    rw [ih (html.take x.start) hys_chain ?hwf2]
    case hwf2 =>
      intro r hr
      refine ⟨(hwf r (by simp [hr])).1, ?_⟩
      have h1 := (hys_rel r hr).1
      simp only [List.length_take]
      omega
    rw [simulFrom_snoc html x ys 0 (fun r hr => (hys_rel r hr).1)
      (fun r hr => (hwf r (by simp [hr])).1)]
    simp [List.append_assoc]

/-- C9 counterexample: with the document `0123456789` and the two
replacements (`[5,5) ↦ X`, `[5,9) ↦ Y`) — whose half-open spans are
pairwise non-overlapping (the first is empty) and lie within the text —
`apply_replacements` does **not** equal simultaneous substitution: the
stable descending sort keeps the empty span first, its insertion shifts
the indices the second splice then cuts at.  (`apply_replacements` yields
`01234Y89`, simultaneous substitution `01234XY9`.) -/
theorem c9_counterexample :
    (([⟨5, 5, s2p "X"⟩, ⟨5, 9, s2p "Y"⟩] : List Replacement).Pairwise
      (fun a b => a.stop ≤ b.start ∨ b.stop ≤ a.start)) ∧
    (∀ r ∈ ([⟨5, 5, s2p "X"⟩, ⟨5, 9, s2p "Y"⟩] : List Replacement),
      r.start ≤ r.stop ∧ r.stop ≤ (s2p "0123456789").length) ∧
    apply_replacements (s2p "0123456789") [⟨5, 5, s2p "X"⟩, ⟨5, 9, s2p "Y"⟩] ≠
      simulFrom (s2p "0123456789") 0
        (([⟨5, 5, s2p "X"⟩, ⟨5, 9, s2p "Y"⟩] : List Replacement).insertionSort
          (fun a b => a.start ≤ b.start)) := by
  refine ⟨by decide, by decide, by decide⟩

/-- C9 amended: for spans that are pairwise non-overlapping **with
pairwise distinct start offsets** and lie within the text,
`apply_replacements` (splicing in descending start order) equals
simultaneous substitution of all spans (processed in ascending start
order), so every span computed against the pre-replacement document is
replaced exactly. -/
theorem c9_apply_replacements_simultaneous (html : List Nat) (reps : List Replacement)
    (hdisj : reps.Pairwise (fun a b => a.stop ≤ b.start ∨ b.stop ≤ a.start))
    (hstarts : reps.Pairwise (fun a b => a.start ≠ b.start))
    (hwf : ∀ r ∈ reps, r.start ≤ r.stop ∧ r.stop ≤ html.length) :
    apply_replacements html reps =
      simulFrom html 0 (reps.insertionSort (fun a b => a.start ≤ b.start)) := by
  haveI : IsTotal Replacement (fun a b => a.start ≤ b.start) := ⟨fun a b => le_total _ _⟩
  haveI : IsTrans Replacement (fun a b => a.start ≤ b.start) :=
    ⟨fun a b c h1 h2 => le_trans h1 h2⟩
  haveI : IsTotal Replacement (fun a b => b.start ≤ a.start) := ⟨fun a b => le_total _ _⟩
  haveI : IsTrans Replacement (fun a b => b.start ≤ a.start) :=
    ⟨fun a b c h1 h2 => le_trans h2 h1⟩
  set asc := reps.insertionSort (fun a b => a.start ≤ b.start) with hasc
  set desc := reps.insertionSort (fun a b => b.start ≤ a.start) with hdesc
  have hperm_asc : List.Perm asc reps := List.perm_insertionSort _ reps
  have hperm_desc : List.Perm desc reps := List.perm_insertionSort _ reps
  have hsorted_asc : asc.Pairwise (fun a b => a.start ≤ b.start) :=
    List.sorted_insertionSort _ reps
  have hsorted_desc : desc.Pairwise (fun a b => b.start ≤ a.start) :=
    List.sorted_insertionSort _ reps
  have hsymm_ne : ∀ {a b : Replacement}, a.start ≠ b.start → b.start ≠ a.start :=
    fun h => h.symm
  have hsymm_disj : ∀ {a b : Replacement},
      (a.stop ≤ b.start ∨ b.stop ≤ a.start) → (b.stop ≤ a.start ∨ a.stop ≤ b.start) :=
    fun h => h.symm
  have hstarts_asc : asc.Pairwise (fun a b => a.start ≠ b.start) :=
    (List.Perm.pairwise_iff hsymm_ne hperm_asc).mpr hstarts
  have hstarts_desc : desc.Pairwise (fun a b => a.start ≠ b.start) :=
    (List.Perm.pairwise_iff hsymm_ne hperm_desc).mpr hstarts
  have hdisj_asc : asc.Pairwise (fun a b => a.stop ≤ b.start ∨ b.stop ≤ a.start) :=
    (List.Perm.pairwise_iff hsymm_disj hperm_asc).mpr hdisj
  have hwf_asc : ∀ r ∈ asc, r.start ≤ r.stop ∧ r.stop ≤ html.length :=
    fun r hr => hwf r (hperm_asc.mem_iff.mp hr)
  -- ascending chain: strict starts and disjointness give `stop ≤ next start`
  have hchain : asc.Pairwise (fun a b => a.stop ≤ b.start ∧ a.start < b.start) := by
    have h1 := hsorted_asc.and hstarts_asc
    have h2 := h1.and hdisj_asc
    refine h2.imp_of_mem ?_
    intro a b ha hb hab
    obtain ⟨⟨hle, hne⟩, hdj⟩ := hab
    have hlt : a.start < b.start := lt_of_le_of_ne hle hne
    have hbwf := hwf_asc b hb
    rcases hdj with hd | hd
    · exact ⟨hd, hlt⟩
    · exfalso
      omega
  -- the descending sort is the reverse of the ascending sort
  have hdesc_eq : desc = asc.reverse := by
    haveI : IsAntisymm Replacement (fun a b => b.start < a.start) :=
      ⟨fun a b h1 h2 => absurd h1 (by omega)⟩
    have hstrict_desc : desc.Pairwise (fun a b => b.start < a.start) := by
      refine (hsorted_desc.and hstarts_desc).imp ?_
      intro a b hab
      exact lt_of_le_of_ne hab.1 (Ne.symm hab.2)
    have hstrict_rev : asc.reverse.Pairwise (fun a b => b.start < a.start) := by
      rw [List.pairwise_reverse]
      exact hchain.imp (fun hab => hab.2)
    exact List.eq_of_perm_of_sorted
      (hperm_desc.trans (hperm_asc.symm.trans asc.reverse_perm.symm))
      hstrict_desc hstrict_rev
  show desc.foldl splice html = simulFrom html 0 asc
  rw [hdesc_eq]
  exact foldl_splice_desc asc html hchain hwf_asc

/-- C9 witness: the amended theorem at the document `0123456789` with the
two disjoint spans `[2,4) ↦ AB` and `[7,9) ↦ C`. -/
theorem c9_apply_replacements_witness :
    apply_replacements (s2p "0123456789") [⟨2, 4, s2p "AB"⟩, ⟨7, 9, s2p "C"⟩] =
      simulFrom (s2p "0123456789") 0
        (([⟨2, 4, s2p "AB"⟩, ⟨7, 9, s2p "C"⟩] : List Replacement).insertionSort
          (fun a b => a.start ≤ b.start)) :=
  c9_apply_replacements_simultaneous (s2p "0123456789")
    [⟨2, 4, s2p "AB"⟩, ⟨7, 9, s2p "C"⟩] (by decide) (by decide) (by decide)

theorem natDigitsAux_val : ∀ (f n : Nat), n < f → lsfVal (natDigitsAux f n) = n := by
  intro f
  induction f with
  | zero => intro n h; omega
  | succ f ih =>
    intro n h
    rw [natDigitsAux]
    split
    · simp [lsfVal]
    · rw [lsfVal, ih (n / 10) (by omega)]
      omega

theorem digitsVal_append_one (a : List Nat) (d : Nat) :
    digitsVal (a ++ [d]) = digitsVal a * 10 + d := by
  unfold digitsVal
  rw [List.foldl_append]
  rfl

theorem digitsVal_reverse : ∀ (l : List Nat), digitsVal l.reverse = lsfVal l := by
  intro l
  induction l with
  | nil => rfl
  | cons d rest ih =>
    rw [List.reverse_cons, digitsVal_append_one, ih, lsfVal]
    omega

theorem digitsVal_natDigits (n : Nat) : digitsVal (natDigits n) = n := by
  rw [natDigits, digitsVal_reverse, natDigitsAux_val (n + 1) n (by omega)]

theorem digitsVal_replicate_zero (k : Nat) (ds : List Nat) :
    digitsVal (List.replicate k 0 ++ ds) = digitsVal ds := by
  induction k with
  | zero => rfl
  | succ k ih =>
    rw [List.replicate_succ, List.cons_append]
    show digitsVal (List.replicate k 0 ++ ds) = digitsVal ds
    exact ih

theorem digitsVal_pad3 (n : Nat) : digitsVal (pad3Digits n) = n := by
  unfold pad3Digits
  split
  · rw [digitsVal_replicate_zero, digitsVal_natDigits]
  · exact digitsVal_natDigits n

theorem synthName_injective : Function.Injective synthName := by
  intro a b h
  unfold synthName at h
  have h2 : (pad3Digits a).map (· + 48) = (pad3Digits b).map (· + 48) :=
    List.append_cancel_left h
  have h3 : pad3Digits a = pad3Digits b :=
    Function.Injective.list_map (fun x y hxy => by omega) h2
  have h4 := congrArg digitsVal h3
  rwa [digitsVal_pad3, digitsVal_pad3] at h4

theorem daStep_emit_detector (body : List Nat) (base sp cu : Nat) (c : BlobCandidate) (n : Nat)
    (h : daStep body base sp cu = .emit c n) : c.detector = Detector.js_assignment := by
  unfold daStep at h
  split at h
  · cases h
  · split at h
    · cases h
    · split at h
      · split at h
        · cases h
        · cases h
          rfl
      · cases h

theorem daLoop_detector (body : List Nat) (base : Nat) :
    ∀ (f sp cu : Nat) (l : List BlobCandidate), daLoop body base f sp cu = some l →
      ∀ c ∈ l, c.detector = Detector.js_assignment := by
  intro f
  induction f with
  | zero => intro sp cu l h; cases h
  | succ f ih =>
    intro sp cu l h c hc
    rw [daLoop] at h
    cases hstep : daStep body base sp cu with
    | halt =>
      rw [hstep] at h
      cases h
      cases hc
    | skipTo n =>
      rw [hstep] at h
      exact ih n cu l h c hc
    | emit c' n =>
      rw [hstep] at h
      rcases Option.map_eq_some'.mp h with ⟨l', hl', rfl⟩
      rcases List.mem_cons.mp hc with rfl | hmem
      · exact daStep_emit_detector body base sp cu c n hstep
      · exact ih n n l' hl' c hmem

theorem dac_detector (body : List Nat) (base : Nat) :
    ∀ c ∈ detect_assignment_candidates body base, c.detector = Detector.js_assignment := by
  intro c hc
  unfold detect_assignment_candidates at hc
  cases h : daLoop body base (body.length + 2) 0 0 with
  | none => rw [h] at hc; cases hc
  | some l =>
    rw [h] at hc
    exact daLoop_detector body base _ 0 0 l h c hc

theorem synthIds_append (a b : List BlobCandidate) :
    synthIds (a ++ b) = synthIds a ++ synthIds b :=
  List.filterMap_append a b _

theorem synthIds_js_nil (l : List BlobCandidate)
    (h : ∀ c ∈ l, c.detector = Detector.js_assignment) : synthIds l = [] := by
  induction l with
  | nil => rfl
  | cons c l ih =>
    have hc := h c (by simp)
    rw [synthIds, List.filterMap_cons]
    rw [if_neg (by simp [hc])]
    exact ih (fun x hx => h x (by simp [hx]))

theorem synthIds_cons_had (c : BlobCandidate) (l : List BlobCandidate)
    (h : c.script_had_id = true) : synthIds (c :: l) = synthIds l := by
  rw [synthIds, List.filterMap_cons, if_neg (by simp [h])]
  rfl

theorem synthIds_cons_syn (c : BlobCandidate) (l : List BlobCandidate)
    (hd : c.detector = Detector.script_json) (h : c.script_had_id = false)
    (i : List Nat) (hi : c.script_id = some i) :
    synthIds (c :: l) = i :: synthIds l := by
  rw [synthIds, List.filterMap_cons, if_pos ⟨hd, h⟩, hi]
  rfl

theorem detectLoop_succ_some (html : List Nat) (f pos ctr : Nat) (m : ScriptMatch)
    (hm : scriptTagSearch html pos = some m) :
    detectLoop html (f+1) pos ctr =
      (if pyStrip (pyLower ((extract_attr m.attrs (s2p "type")).getD [])) =
          s2p "application/json" then
        if (pyStrip m.body).isEmpty then detectLoop html f m.stop ctr
        else
          match jsonLoads (pyStrip m.body) with
          | none => detectLoop html f m.stop ctr
          | some parsed =>
            match extract_attr m.attrs (s2p "id") with
            | some existing =>
              { detector := .script_json, start := m.start, stop := m.stop,
                payload_bytes := (utf8Encode (pyStrip m.body)).length,
                raw_json := pyStrip m.body, value := parsed,
                script_attrs := some m.attrs,
                script_id := some (if existing.isEmpty then synthName ctr else existing),
                script_had_id := true } ::
                detectLoop html f m.stop ctr
            | none =>
              { detector := .script_json, start := m.start, stop := m.stop,
                payload_bytes := (utf8Encode (pyStrip m.body)).length,
                raw_json := pyStrip m.body, value := parsed,
                script_attrs := some m.attrs,
                script_id := some (synthName ctr), script_had_id := false } ::
                detectLoop html f m.stop (ctr + 1)
      else detect_assignment_candidates m.body m.bodyStart ++ detectLoop html f m.stop ctr) := by
  rw [detectLoop, hm]

theorem detectLoop_synthIds (html : List Nat) :
    ∀ (f pos ctr : Nat), ∃ k,
      synthIds (detectLoop html f pos ctr) = (List.range' ctr k).map synthName := by
  intro f
  induction f with
  | zero => intro pos ctr; exact ⟨0, rfl⟩
  | succ f ih =>
    intro pos ctr
    cases hm : scriptTagSearch html pos with
    | none =>
      refine ⟨0, ?_⟩
      rw [detectLoop, hm]
      rfl
    | some m =>
      rw [detectLoop_succ_some html f pos ctr m hm]
      split
      · split
        · exact ih m.stop ctr
        · cases hp : jsonLoads (pyStrip m.body) with
          | none => exact ih m.stop ctr
          | some parsed =>
            cases he : extract_attr m.attrs (s2p "id") with
            | some existing =>
              obtain ⟨k, hk⟩ := ih m.stop ctr
              exact ⟨k, (synthIds_cons_had _ _ rfl).trans hk⟩
            | none =>
              obtain ⟨k, hk⟩ := ih m.stop (ctr + 1)
              exact ⟨k + 1, (synthIds_cons_syn _ _ rfl rfl _ rfl).trans
                (congrArg (List.cons (synthName ctr)) hk)⟩
      · obtain ⟨k, hk⟩ := ih m.stop ctr
        refine ⟨k, ?_⟩
        rw [synthIds_append, synthIds_js_nil _ (dac_detector m.body m.bodyStart),
          List.nil_append]
        exact hk

theorem detectLoop_script_meta (html : List Nat) :
    ∀ (f pos ctr : Nat), ∀ c ∈ detectLoop html f pos ctr,
      c.detector = Detector.script_json →
      ∃ a, c.script_attrs = some a ∧
        (c.script_had_id = true → ∃ e, extract_attr a (s2p "id") = some e ∧
          (e.isEmpty = false → c.script_id = some e)) ∧
        (c.script_had_id = false → extract_attr a (s2p "id") = none) := by
  intro f
  induction f with
  | zero => intro pos ctr c hc; cases hc
  | succ f ih =>
    intro pos ctr c hc hdet
    cases hm : scriptTagSearch html pos with
    | none =>
      rw [detectLoop, hm] at hc
      simp at hc
    | some m =>
      rw [detectLoop_succ_some html f pos ctr m hm] at hc
      split at hc
      · split at hc
        · exact ih m.stop ctr c hc hdet
        · cases hp : jsonLoads (pyStrip m.body) with
          | none =>
            rw [hp] at hc
            exact ih m.stop ctr c hc hdet
          | some parsed =>
            rw [hp] at hc
            cases he : extract_attr m.attrs (s2p "id") with
            | some existing =>
              rw [he] at hc
              rcases List.mem_cons.mp hc with rfl | hmem
              · refine ⟨m.attrs, rfl, fun _ => ⟨existing, he, fun hne => ?_⟩,
                  fun hfalse => ?_⟩
                · show some (if existing.isEmpty then synthName ctr else existing) =
                    some existing
                  rw [hne]
                  simp
                · simp at hfalse
              · exact ih m.stop ctr c hmem hdet
            | none =>
              rw [he] at hc
              rcases List.mem_cons.mp hc with rfl | hmem
              · refine ⟨m.attrs, rfl, fun htrue => ?_, fun _ => he⟩
                simp at htrue
              · exact ih m.stop (ctr + 1) c hmem hdet
      · rcases List.mem_append.mp hc with hmem | hmem
        · rw [dac_detector m.body m.bodyStart c hmem] at hdet
          cases hdet
        · exact ih m.stop ctr c hmem hdet

set_option maxRecDepth 10000 in
/-- C8 counterexample: on a document whose first JSON script carries the
explicit attribute `id=""`, that candidate is marked `script_had_id` yet
its empty id is **not** preserved — `existing_id or f"karospace_data_…"`
treats the empty string as falsy, so the candidate receives
`karospace_data_000` without advancing the counter — and the next
id-less script is assigned the very same `karospace_data_000`, so the
synthesized-form ids are not unique within the document. -/
theorem c8_counterexample :
    (detect_candidates exHtmlC8b).length = 2 ∧
    ((detect_candidates exHtmlC8b).get ⟨0, by decide⟩).script_had_id = true ∧
    ((detect_candidates exHtmlC8b).get ⟨0, by decide⟩).script_attrs.map
      (fun a => extract_attr a (s2p "id")) = some (some []) ∧
    ((detect_candidates exHtmlC8b).get ⟨0, by decide⟩).script_id =
      some (s2p "karospace_data_000") ∧
    ((detect_candidates exHtmlC8b).get ⟨1, by decide⟩).script_had_id = false ∧
    ((detect_candidates exHtmlC8b).get ⟨1, by decide⟩).script_id =
      some (s2p "karospace_data_000") := by
  refine ⟨by decide, by decide, by decide, by decide, by decide, by decide⟩

/-- C8 corrected: synthesized script ids.  (1) Over any scan pass of the
script-JSON detector starting at counter `ctr`, the synthesized ids of
the candidates emitted *without* `script_had_id` are exactly
`karospace_data_NNN` for the consecutive counter values starting at
`ctr` — the counter advances only on elements with no id attribute at
all; `detect_candidates` starts the counter at 0.  (2) Every script-JSON
candidate records its element's attribute text; one carrying
`script_had_id = true` has an id attribute and preserves its extracted
id whenever that id is nonempty (an empty `id=""` is falsy and is
replaced by the synthesized-form name at the current counter, without
advancing it), and one with `script_had_id = false` comes from an
element with no id attribute.  (3) The ids synthesized for the
`script_had_id = false` candidates are pairwise distinct within the
document — the claim's unqualified uniqueness fails, since an empty-id
candidate's assigned name can duplicate a later synthesized id. -/
theorem c8_synthesized_ids (html : List Nat) :
    (∀ (f pos ctr : Nat), ∃ k,
      synthIds (detectLoop html f pos ctr) = (List.range' ctr k).map synthName) ∧
    (∃ k, synthIds (detectLoop html (html.length + 1) 0 0) =
      (List.range' 0 k).map synthName) ∧
    (∀ c ∈ detect_candidates html, c.detector = Detector.script_json →
      ∃ a, c.script_attrs = some a ∧
        (c.script_had_id = true → ∃ e, extract_attr a (s2p "id") = some e ∧
          (e.isEmpty = false → c.script_id = some e)) ∧
        (c.script_had_id = false → extract_attr a (s2p "id") = none)) ∧
    (synthIds (detect_candidates html)).Nodup := by
  refine ⟨detectLoop_synthIds html, detectLoop_synthIds html (html.length + 1) 0 0, ?_, ?_⟩
  · intro c hc hdet
    have hperm : List.Perm (detect_candidates html) (detectLoop html (html.length + 1) 0 0) :=
      List.perm_insertionSort _ _
    exact detectLoop_script_meta html (html.length + 1) 0 0 c (hperm.mem_iff.mp hc) hdet
  · obtain ⟨k, hk⟩ := detectLoop_synthIds html (html.length + 1) 0 0
    have hperm :
        List.Perm (synthIds (detect_candidates html))
          (synthIds (detectLoop html (html.length + 1) 0 0)) :=
      List.Perm.filterMap _ (List.perm_insertionSort _ _)
    rw [hperm.nodup_iff, hk]
    have hrange : (List.range' 0 k).Nodup := @List.nodup_range' 0 k 1 (by omega)
    exact (List.nodup_map_iff_inj_on hrange).mpr
      (fun x _ y _ hxy => synthName_injective hxy)

set_option maxRecDepth 10000 in
/-- C8 witness: on the three-script document, the synthesized ids are
`karospace_data_000` and `karospace_data_001` (the explicit id `keep` is
preserved and does not advance the counter), and they are distinct. -/
theorem c8_synthesized_ids_witness :
    synthIds (detect_candidates exHtmlC8) =
      [s2p "karospace_data_000", s2p "karospace_data_001"] ∧
    (synthIds (detect_candidates exHtmlC8)).Nodup ∧
    (∃ a, ((detect_candidates exHtmlC8).get ⟨1, by decide⟩).script_attrs = some a ∧
      (((detect_candidates exHtmlC8).get ⟨1, by decide⟩).script_had_id = true →
        ∃ e, extract_attr a (s2p "id") = some e ∧
          (e.isEmpty = false →
            ((detect_candidates exHtmlC8).get ⟨1, by decide⟩).script_id = some e)) ∧
      (((detect_candidates exHtmlC8).get ⟨1, by decide⟩).script_had_id = false →
        extract_attr a (s2p "id") = none)) :=
  ⟨by decide, (c8_synthesized_ids exHtmlC8).2.2.2,
   (c8_synthesized_ids exHtmlC8).2.2.1 _ (List.get_mem _ _ _) (by decide)⟩

theorem wacLoop_mem (slices : List (List Json)) :
    ∀ ctr p, p ∈ wacLoop ctr slices →
      p.1.bytes = (utf8Encode p.2.content).length ∧
      p.1.path = s2p "data/" ++ p.2.name ∧
      ∃ l, p.2.content = serializeChars (Json.arr l) ∧ p.1.items = some l.length := by
  induction slices with
  | nil => intro ctr p hp; simp [wacLoop] at hp
  | cons a rest ih =>
    intro ctr p hp
    rcases List.mem_cons.mp hp with hEq | htail
    · subst hEq
      exact ⟨rfl, rfl, a, rfl, rfl⟩
    · exact ih (ctr + 1) p htail

theorem wtcLoop_mem (parts : List (List Nat)) :
    ∀ ctr p, p ∈ wtcLoop ctr parts →
      p.1.bytes = (utf8Encode p.2.content).length ∧
      p.1.path = s2p "data/" ++ p.2.name ∧ p.1.items = none := by
  induction parts with
  | nil => intro ctr p hp; simp [wtcLoop] at hp
  | cons a rest ih =>
    intro ctr p hp
    rcases List.mem_cons.mp hp with hEq | htail
    · subst hEq
      exact ⟨rfl, rfl, rfl⟩
    · exact ih (ctr + 1) p htail

theorem wacLoop_length (slices : List (List Json)) :
    ∀ ctr, (wacLoop ctr slices).length = slices.length := by
  induction slices with
  | nil => intro ctr; rfl
  | cons a rest ih => intro ctr; simp [wacLoop, ih (ctr + 1)]

theorem wtcLoop_length (parts : List (List Nat)) :
    ∀ ctr, (wtcLoop ctr parts).length = parts.length := by
  induction parts with
  | nil => intro ctr; rfl
  | cons a rest ih => intro ctr; simp [wtcLoop, ih (ctr + 1)]

/-- C10: manifest consistency.  Whenever a chunk-writing pass succeeds,
the returned counter is the starting counter advanced once per recorded
entry, and every manifest entry matches the file written alongside it:
its `bytes` field is the UTF-8 byte length of the written content, its
`path` field is `data/` followed by the written file's name, and for the
array strategy the written content is the serialization of a JSON array
whose element count is the entry's `items` field (text entries carry no
`items` field). -/
theorem c10_manifest_consistency (tb : Int) (ctr : Nat) :
    (∀ (value : List Json) pairs c strat,
      write_array_chunks value tb ctr = .ok (pairs, c, strat) →
      c = ctr + pairs.length ∧
      ∀ p ∈ pairs,
        p.1.bytes = (utf8Encode p.2.content).length ∧
        p.1.path = s2p "data/" ++ p.2.name ∧
        ∃ l, p.2.content = serializeChars (Json.arr l) ∧ p.1.items = some l.length) ∧
    (∀ (value : Json) pairs c strat,
      write_text_chunks value tb ctr = .ok (pairs, c, strat) →
      c = ctr + pairs.length ∧
      ∀ p ∈ pairs,
        p.1.bytes = (utf8Encode p.2.content).length ∧
        p.1.path = s2p "data/" ++ p.2.name ∧ p.1.items = none) := by
  constructor
  · intro value pairs c strat h
    unfold write_array_chunks at h
    cases hs : split_array_for_target_bytes value tb with
    | error e => rw [hs] at h; exact absurd h (by simp [Except.map])
    | ok slices =>
      rw [hs] at h
      simp only [Except.map] at h
      have hinj := Except.ok.inj h
      have h1 : wacLoop ctr slices = pairs := congrArg Prod.fst hinj
      have h2 : ctr + slices.length = c := congrArg (fun q => q.2.1) hinj
      constructor
      · rw [← h1, ← h2, wacLoop_length]
      · intro p hp
        rw [← h1] at hp
        exact wacLoop_mem slices ctr p hp
  · intro value pairs c strat h
    unfold write_text_chunks at h
    cases hs : split_utf8_text_by_bytes (serializeChars value) tb with
    | error e => rw [hs] at h; exact absurd h (by simp [Except.map])
    | ok parts =>
      rw [hs] at h
      simp only [Except.map] at h
      have hinj := Except.ok.inj h
      have h1 : wtcLoop ctr parts = pairs := congrArg Prod.fst hinj
      have h2 : ctr + parts.length = c := congrArg (fun q => q.2.1) hinj
      constructor
      · rw [← h1, ← h2, wtcLoop_length]
      · intro p hp
        rw [← h1] at hp
        exact wtcLoop_mem parts ctr p hp

/-- C10 witness: two one-element array chunks for `[1, 2]` at a
four-byte target, and the string `"ab"` split into two text pieces at a
two-byte target; in both cases the recorded entries match the written
files. -/
theorem c10_manifest_consistency_witness :
    ((write_array_chunks [Json.num 1, Json.num 2] 4 0 =
      .ok (wacLoop 0 [[Json.num 1], [Json.num 2]], 2, s2p "array_slices")) ∧
    (2 = 0 + (wacLoop 0 [[Json.num 1], [Json.num 2]]).length ∧
      ∀ p ∈ wacLoop 0 [[Json.num 1], [Json.num 2]],
        p.1.bytes = (utf8Encode p.2.content).length ∧
        p.1.path = s2p "data/" ++ p.2.name ∧
        ∃ l, p.2.content = serializeChars (Json.arr l) ∧ p.1.items = some l.length)) ∧
    ((write_text_chunks (Json.str (s2p "ab")) 2 0 =
      .ok (wtcLoop 0 [[34, 97], [98, 34]], 2, s2p "text_concat")) ∧
    (2 = 0 + (wtcLoop 0 [[34, 97], [98, 34]]).length ∧
      ∀ p ∈ wtcLoop 0 [[34, 97], [98, 34]],
        p.1.bytes = (utf8Encode p.2.content).length ∧
        p.1.path = s2p "data/" ++ p.2.name ∧ p.1.items = none)) :=
  ⟨⟨by rfl, (c10_manifest_consistency 4 0).1 [Json.num 1, Json.num 2] _ _ _ (by rfl)⟩,
   ⟨by rfl, (c10_manifest_consistency 2 0).2 (Json.str (s2p "ab")) _ _ _ (by rfl)⟩⟩

set_option maxRecDepth 10000 in
/-- C5 counterexample: under auto mode with a valid configuration and an
input in which detection finds zero candidates, `run` raises the
zero-candidate `RuntimeError` after the backup copy instead of comparing
the zero payload against the threshold and copying the file: the
zero-candidate check in `run()` precedes the threshold comparison and is
not scoped to directory mode. -/
theorem c5_counterexample :
    run c5Env = ([.mkOutdir, .mkBackupDir, .backupWrite], .error .noCandidates) ∧
    (run c5Env).2 ≠ .ok Outcome.single := by
  constructor
  · decide
  · decide

/-- C5 corrected: for every run with a valid slug and an existing input
file, in any mode other than single, zero detected candidates make the
run fail with the zero-candidate error — auto mode included, with the
events showing that the output directory and backup copy were already
made. -/
theorem c5_zero_candidates_any_mode (env : RunEnv)
    (hs : validate_slug env.slug = true) (he : env.inputExists = true)
    (hf : env.inputIsFile = true) (hm : env.mode ≠ Mode.single)
    (hc : (detect_candidates env.html).isEmpty = true) :
    run env = ([.mkOutdir, .mkBackupDir, .backupWrite], .error .noCandidates) := by
  simp [run, hs, he, hf, hm, hc]

set_option maxRecDepth 10000 in
/-- C5 corrected witness: the counterexample configuration satisfies the
corrected statement's hypotheses. -/
theorem c5_zero_candidates_witness :
    run c5Env = ([.mkOutdir, .mkBackupDir, .backupWrite], .error .noCandidates) :=
  c5_zero_candidates_any_mode c5Env (by decide) (by decide) (by decide)
    (by decide) (by decide)

/-- C6 counterexample: a single-mode run whose input and output resolve
to the same file still performs the output-directory creation, the
backup-directory creation and the backup copy before `copy_single`
raises the same-path `ValueError`, so the configuration error does not
precede all I/O. -/
theorem c6_counterexample :
    run c6Env = ([.mkOutdir, .mkBackupDir, .backupWrite, .mkOutdirAgain],
      .error .samePath) ∧
    Event.backupWrite ∈ (run c6Env).1 := by
  constructor
  · decide
  · decide

/-- C6 corrected: only the slug check precedes I/O — an invalid slug
fails with no filesystem event at all; the same-path error in single
mode and the non-positive chunk-size error in directory mode are both
raised only after the output directory, backup directory and backup copy
events (and the threshold value is never validated: no error constructor
corresponds to it). -/
theorem c6_error_ordering :
    (∀ env : RunEnv, validate_slug env.slug = false →
      run env = ([], .error .invalidSlug)) ∧
    (∀ env : RunEnv, validate_slug env.slug = true → env.inputExists = true →
      env.inputIsFile = true → env.mode = Mode.single → env.sameFilePath = true →
      run env = ([.mkOutdir, .mkBackupDir, .backupWrite, .mkOutdirAgain],
        .error .samePath)) ∧
    (∀ env : RunEnv, validate_slug env.slug = true → env.inputExists = true →
      env.inputIsFile = true → env.mode = Mode.directory →
      (detect_candidates env.html).isEmpty = false → env.chunkTargetBytes ≤ 0 →
      run env = ([.mkOutdir, .mkBackupDir, .backupWrite], .error .badChunkMb)) := by
  refine ⟨fun env h => ?_, fun env hs he hf hm hsame => ?_,
    fun env hs he hf hm hc htb => ?_⟩
  · simp [run, h]
  · simp [run, hs, he, hf, hm, hsame]
  · have hext : externalize_to_directory (detect_candidates env.html)
        env.chunkTargetBytes = ([], .error .badChunkMb) := by
      simp [externalize_to_directory, hc, htb]
    simp [run, hs, he, hf, hm, hc, hext]

set_option maxRecDepth 10000 in
/-- C6 corrected witness: a whitespace slug fails with no event; the
same-path and chunk-size configurations fail only after the backup
events. -/
theorem c6_error_ordering_witness :
    run { slug := [32], inputExists := true, inputIsFile := true,
          sameFilePath := false, html := [], mode := Mode.single,
          thresholdBytes := 83886080, chunkTargetBytes := 52428800 } =
        ([], .error .invalidSlug) ∧
    run c6Env = ([.mkOutdir, .mkBackupDir, .backupWrite, .mkOutdirAgain],
        .error .samePath) ∧
    run c6DirEnv = ([.mkOutdir, .mkBackupDir, .backupWrite], .error .badChunkMb) :=
  ⟨c6_error_ordering.1 _ (by decide),
   c6_error_ordering.2.1 c6Env (by decide) (by decide) (by decide) (by decide)
     (by decide),
   c6_error_ordering.2.2 c6DirEnv (by decide) (by decide) (by decide) (by decide)
     (by decide) (by decide)⟩

/-- C7: auto-mode threshold boundary.  With a valid configuration, an
existing input file, auto mode and at least one detected candidate: when
the total payload byte sum equals the threshold the run performs the
single-file copy and succeeds with the single outcome, and when the
total is one byte over the threshold the run takes the directory branch
— its events are the backup events followed exactly by the
externalization events, and its result is the externalization result. -/
theorem c7_threshold_boundary (env : RunEnv)
    (hs : validate_slug env.slug = true) (he : env.inputExists = true)
    (hf : env.inputIsFile = true) (hm : env.mode = Mode.auto)
    (hc : (detect_candidates env.html).isEmpty = false) :
    ((payloadTotal env.html : Int) = env.thresholdBytes →
      env.sameFilePath = false →
      run env = ([.mkOutdir, .mkBackupDir, .backupWrite, .mkOutdirAgain,
        .copySingleWrite], .ok .single)) ∧
    (env.thresholdBytes + 1 = (payloadTotal env.html : Int) →
      run env = ([.mkOutdir, .mkBackupDir, .backupWrite] ++
          (externalize_to_directory (detect_candidates env.html)
            env.chunkTargetBytes).1,
        Except.map Outcome.directory
          (externalize_to_directory (detect_candidates env.html)
            env.chunkTargetBytes).2)) := by
  constructor
  · intro hT hsame
    simp [run, hs, he, hf, hm, hc, hsame, ← hT]
  · intro hT
    have hcond : ¬ (env.mode = Mode.auto ∧
        (payloadTotal env.html : Int) ≤ env.thresholdBytes) := by
      rintro ⟨-, hle⟩
      omega
    simp only [run, hs, he, hf, hm, hc]
    rw [if_neg (by simp), if_neg (by simp), if_neg (by simp),
      if_neg (by simp), if_neg (by simp [hc]), if_neg (by simpa [hm] using hcond)]
    cases hext : externalize_to_directory (detect_candidates env.html)
        env.chunkTargetBytes with
    | mk evs r =>
      cases r with
      | error e => simp [Except.map]
      | ok n => simp [Except.map]

set_option maxRecDepth 10000 in
/-- C7 witness: one three-byte payload; with the threshold at three
bytes the run copies the file, with the threshold at two bytes it
externalizes to a directory. -/
theorem c7_threshold_boundary_witness :
    run c7EnvT = ([.mkOutdir, .mkBackupDir, .backupWrite, .mkOutdirAgain,
        .copySingleWrite], .ok .single) ∧
    run c7EnvD = ([.mkOutdir, .mkBackupDir, .backupWrite] ++
        (externalize_to_directory (detect_candidates c7EnvD.html)
          c7EnvD.chunkTargetBytes).1,
      Except.map Outcome.directory
        (externalize_to_directory (detect_candidates c7EnvD.html)
          c7EnvD.chunkTargetBytes).2) :=
  ⟨(c7_threshold_boundary c7EnvT (by decide) (by decide) (by decide) (by decide)
      (by decide)).1 (by decide) (by decide),
   (c7_threshold_boundary c7EnvD (by decide) (by decide) (by decide) (by decide)
      (by decide)).2 (by decide)⟩

end KaroSpaceSE
